/-
Verification of the request-body sanitization scripts of
`claude-code-router-llms-src-backup` (the `trash/` Python utilities).

The development shallowly embeds, faithfully to the Python sources:

* `fix_markdown_issues.py`: the nine-step `fix_markdown_content` rewrite
  pipeline and its `fix_last_tool_message` patcher;
* `fix_last_message.py`: `find_messages_in_json`, its own
  `fix_last_tool_message`, and `fix_request_body`;
* `fix_request_body.py`: `fix_tool_calls` (with a model of the parts of
  Python's `json` module it uses: `json.loads` / `json.dumps`);
* `fix_problematic_message.py`: `truncate_tool_message`;
* `test_comprehensive_markdown_cleanup.py`: the whitespace-collapsing step of
  `simulate_cleanup` (its lines 82-83).

Modelling conventions:

* Strings are handled through their underlying `List Char`; all embedded
  string functions are written against the list so that every definition is
  executable by kernel reduction (no `String` byte-position primitives).
* Each concrete `re.sub` call in the sources uses a pattern of the shape
  "literal delimiters around negated character classes" (for instance
  `\[([^\]]+)\]\([^)]+\)`).  For such patterns the regex engine's behaviour
  is deterministic: at a given start position either the match attempt fails
  or it succeeds with a uniquely determined extent (a greedy `[^x]+` run can
  only stop right before an `x`, so backtracking can never produce a second
  viable extent).  Each `re.sub`/`str.replace` is therefore embedded as a
  left-to-right scanner with a per-position deterministic matcher, which is
  exactly `re.sub`'s leftmost, non-overlapping semantics (scanning resumes at
  the end of each replacement).
* Recursion that is not structural (scanners consuming several characters,
  recursion over nested JSON trees) is written with an explicit fuel
  parameter so that every definition reduces in the kernel; each wrapper
  supplies fuel that is provably sufficient (fuel drops by one per step while
  the measure --- characters remaining, or `sizeOf` of the subtree --- drops
  by at least one as well, so fuel starting at the measure never runs out).
* Python runtime errors (`AttributeError`/`TypeError` from calling `.get`,
  `.lower`, `in`, `del` or `str.startswith` on a value of the wrong dynamic
  type) are modelled with `Except Unit`.
-/

import Mathlib

set_option maxRecDepth 8000

/-! ## Python whitespace

`re` on `str` patterns matches `\s` against the Unicode whitespace
characters, not just ASCII: space, `\t\n\v\f\r`, the C1 separators
`\x1c`-`\x1f`, `\x85`, NBSP, and the Unicode space/separator code points. -/

def isPyWs (c : Char) : Bool :=
  let n := c.toNat
  (9 ≤ n && n ≤ 13) || n == 32 || (28 ≤ n && n ≤ 31) || n == 0x85 ||
  n == 0xA0 || n == 0x1680 || (0x2000 ≤ n && n ≤ 0x200A) || n == 0x2028 ||
  n == 0x2029 || n == 0x202F || n == 0x205F || n == 0x3000

/-! ## A generic `re.sub` / `str.replace` scanner

`pySub m fuel s` scans `s` left to right.  At each position the matcher `m`
receives the whole remaining suffix; `some (repl, used)` means "a match of
`used` characters starting here, replaced by `repl`" (every matcher below
only matches with `used ≥ 1`), and scanning resumes after the match, as
`re.sub` does.  `none` emits one character and moves on.  Fuel drops by one
per emitted-or-replaced step while at least one character is consumed, so
`fuel = s.length` always suffices (`applySub`). -/

def pySub (m : List Char → Option (List Char × Nat)) : Nat → List Char → List Char
  | 0, s => s
  | _, [] => []
  | fuel + 1, c :: rest =>
    match m (c :: rest) with
    | some (repl, used) => repl ++ pySub m fuel (rest.drop (used - 1))
    | none => c :: pySub m fuel rest

def applySub (m : List Char → Option (List Char × Nat)) (s : List Char) : List Char :=
  pySub m s.length s

/-- Matcher for a literal pattern (`str.replace pat repl`, and `re.sub` on a
regex with no metacharacters). `pat` is nonempty at every use site. -/
def litMatch (pat repl : List Char) (cs : List Char) : Option (List Char × Nat) :=
  if pat.isPrefixOf cs then some (repl, pat.length) else none

def replaceAll (pat repl : List Char) (s : List Char) : List Char :=
  applySub (litMatch pat repl) s

/-! ## The matchers of `fix_markdown_content` (fix_markdown_issues.py 32-82)

Each matcher implements one of the file's regexes at one start position,
with the deterministic greedy semantics explained in the header. -/

/-- Step 1, `\[!\[([^\]]+)\]\(([^)]+)\)\]\(([^)]+)\)` replaced by `[\1](\3)`:
nested markdown image-in-link. -/
def nestedImageMatch : List Char → Option (List Char × Nat)
  | '[' :: '!' :: '[' :: rest =>
    let alt := rest.takeWhile (fun c => c != ']')
    match alt, rest.dropWhile (fun c => c != ']') with
    | _ :: _, ']' :: '(' :: r2 =>
      let badge := r2.takeWhile (fun c => c != ')')
      match badge, r2.dropWhile (fun c => c != ')') with
      | _ :: _, ')' :: ']' :: '(' :: r4 =>
        let target := r4.takeWhile (fun c => c != ')')
        match target, r4.dropWhile (fun c => c != ')') with
        | _ :: _, ')' :: _ =>
          some ('[' :: alt ++ ']' :: '(' :: target ++ [')'],
                9 + alt.length + badge.length + target.length)
        | _, _ => none
      | _, _ => none
    | _, _ => none
  | _ => none

/-- Step 5, `!\[([^\]]+)\]\([^)]+\)` replaced by `\1`: markdown image/badge. -/
def badgeMatch : List Char → Option (List Char × Nat)
  | '!' :: '[' :: rest =>
    let alt := rest.takeWhile (fun c => c != ']')
    match alt, rest.dropWhile (fun c => c != ']') with
    | _ :: _, ']' :: '(' :: r2 =>
      let url := r2.takeWhile (fun c => c != ')')
      match url, r2.dropWhile (fun c => c != ')') with
      | _ :: _, ')' :: _ => some (alt, 5 + alt.length + url.length)
      | _, _ => none
    | _, _ => none
  | _ => none

/-- Step 6, `\[([^\]]+)\]\([^)]+\)` replaced by `\1`: markdown link. -/
def linkMatch : List Char → Option (List Char × Nat)
  | '[' :: rest =>
    let label := rest.takeWhile (fun c => c != ']')
    match label, rest.dropWhile (fun c => c != ']') with
    | _ :: _, ']' :: '(' :: r2 =>
      let url := r2.takeWhile (fun c => c != ')')
      match url, r2.dropWhile (fun c => c != ')') with
      | _ :: _, ')' :: _ => some (label, 4 + label.length + url.length)
      | _, _ => none
    | _, _ => none
  | _ => none

/-- Step 7a, `\*\*([^*]+)\*\*` replaced by `\1`: bold emphasis. -/
def boldMatch : List Char → Option (List Char × Nat)
  | '*' :: '*' :: rest =>
    let body := rest.takeWhile (fun c => c != '*')
    match body, rest.dropWhile (fun c => c != '*') with
    | _ :: _, '*' :: '*' :: _ => some (body, 4 + body.length)
    | _, _ => none
  | _ => none

/-- Step 7b, backtick `(inline code)` pattern replaced by its body. -/
def codeMatch : List Char → Option (List Char × Nat)
  | c :: rest =>
    if c == '`' then
      let body := rest.takeWhile (fun d => d != '`')
      match body, rest.dropWhile (fun d => d != '`') with
      | _ :: _, d :: _ => if d == '`' then some (body, 2 + body.length) else none
      | _, _ => none
    else none
  | [] => none

/-- Step 7c, `^#+\s*` (multiline) replaced by the empty string.  The scanner
threads `atStart`: whether the current position is the string start or sits
right after a `\n` of the original text, which is what the `^` anchor of a
`re.MULTILINE` pattern tests.  On a match the whole `#`-run and the greedy
(possibly newline-crossing) `\s*` run are dropped, and the flag for the
resumption point is read off the last dropped character. -/
def stripHeadsF : Nat → Bool → List Char → List Char
  | 0, _, s => s
  | _, _, [] => []
  | fuel + 1, atStart, c :: rest =>
    if atStart && c == '#' then
      let afterHash := rest.dropWhile (fun d => d == '#')
      let ws := afterHash.takeWhile isPyWs
      let nextStart := match ws.getLast? with
        | some d => d == '\n'
        | none => false
      stripHeadsF fuel nextStart (afterHash.dropWhile isPyWs)
    else c :: stripHeadsF fuel (c == '\n') rest

def stripHeads (s : List Char) : List Char := stripHeadsF s.length true s

/-- Step 3 of `fix_markdown_content` (and rule 3 of `simulate_cleanup` in
test_comprehensive_markdown_cleanup.py, lines 62-64): `content.replace('\\\\', '/')`,
i.e. each left-to-right, non-overlapping pair of consecutive backslash
characters becomes one forward slash. -/
def fixWindowsPaths (s : List Char) : List Char :=
  replaceAll ['\\', '\\'] ['/'] s

/-- Embedding of `fix_markdown_content` (fix_markdown_issues.py, lines 32-82):
the guard `if not content: return content`, then the nine rewrite steps in
source order. -/
def fix_markdown_content (content : String) : String :=
  if content.data.isEmpty then content
  else
    let s1 := applySub nestedImageMatch content.data
    let s2 := replaceAll "%2B".data "+".data s1
    let s3 := fixWindowsPaths s2
    let s4 := replaceAll "name:\t".data "name: ".data s3
    let s5 := applySub badgeMatch s4
    let s6 := applySub linkMatch s5
    let s7 := applySub boldMatch s6
    let s8 := applySub codeMatch s7
    ⟨stripHeads s8⟩

/-! ## The whitespace-collapsing step of `simulate_cleanup`
(test_comprehensive_markdown_cleanup.py, lines 82-83)

Line 82 is `re.sub(r'\s+', ' ', content)`: every maximal whitespace run
(newlines included, since `\s` matches them) becomes one space.  Line 83 is
`re.sub(r'\n\s*\n\s*\n', '\n\n', content)`.  For the latter, at a position
whose character is `\n`, let `run` be the maximal whitespace run that
follows.  The greedy first `\s*` must stop immediately before a `\n` inside
`run`; trying its stops from the right, the engine settles on the
second-to-last newline of `run` (after the last one, no newline is left for
the final literal), and the second `\s*` then runs up to the last newline of
`run`, where the match ends.  So: a match exists iff `run` contains at least
two newlines, and it extends through the last newline of `run`. -/

def wsRunMatch : List Char → Option (List Char × Nat)
  | c :: rest => if isPyWs c then some ([' '], 1 + (rest.takeWhile isPyWs).length) else none
  | [] => none

/-- Index of the last `'\n'` of a list, if any. -/
def idxOfLastNl : List Char → Option Nat
  | [] => none
  | c :: rest =>
    match idxOfLastNl rest with
    | some i => some (i + 1)
    | none => if c == '\n' then some 0 else none

def tripleNlMatch : List Char → Option (List Char × Nat)
  | c :: rest =>
    if c == '\n' then
      let run := rest.takeWhile isPyWs
      if 2 ≤ (run.filter (fun d => d == '\n')).length then
        match idxOfLastNl run with
        | some i => some (['\n', '\n'], i + 2)
        | none => none
      else none
    else none
  | [] => none

/-- Embedding of the whitespace-collapsing step of `simulate_cleanup`
(lines 82-83), in source order: first `\s+` to a space, then the
triple-newline collapse. -/
def collapse_whitespace (content : String) : String :=
  ⟨applySub tripleNlMatch (applySub wsRunMatch content.data)⟩

/-! ## `truncate_tool_message` (fix_problematic_message.py, lines 11-40) -/

/-- Python's `s[:k]` for an `int` index `k`: a negative index counts from the
end, clamped at zero (`Int.toNat` clamps). -/
def pySliceTo (s : List Char) (k : Int) : List Char :=
  s.take (if 0 ≤ k then k.toNat else ((s.length : Int) + k).toNat)

/-- Python's `str.split('\n')`: split on every newline, keeping empty parts
(`"".split('\n') == [""]`, `"\n".split('\n') == ["", ""]`). -/
def splitNl : List Char → List (List Char)
  | [] => [[]]
  | c :: rest =>
    let r := splitNl rest
    if c == '\n' then [] :: r
    else
      match r with
      | h :: t => (c :: h) :: t
      | [] => [[c]]

/-- Embedding of `truncate_tool_message(content, max_length)`; the Python
default for `max_length` is 500, which is what every call site uses. -/
def headerTruncation (l0 l1 : List Char) (max_length : Nat) : String :=
  ⟨l0⟩ ++ "\n" ++
    (if (max_length : Int) - l0.length - 10 < (l1.length : Int) then
      (⟨pySliceTo l1 ((max_length : Int) - l0.length - 13)⟩ ++ "..." : String)
    else ⟨l1⟩) ++ "\n[内容已截断]"

def truncate_tool_message (content : String) (max_length : Nat) : String :=
  if content.length ≤ max_length then content
  else if "name:".data.isPrefixOf content.data then
    match splitNl content.data with
    | l0 :: l1 :: _ => headerTruncation l0 l1 max_length
    | _ => ⟨pySliceTo content.data ((max_length : Int) - 3)⟩ ++ "..."
  else ⟨pySliceTo content.data ((max_length : Int) - 3)⟩ ++ "..."

/-! ## An untyped JSON document tree

`JVal` models the parsed-JSON values the scripts traverse.  Numbers are
modelled as integers: no input in this development carries a fractional or
exponent part, and the model's `loads` treats non-integer numerals as a
parse failure (noted again there).  A Python `list` is `JArr` and a Python
`dict` is `JObj`, an association list in insertion order; every state
reachable from real Python code has pairwise distinct keys.  The three
types are a mutual (rather than nested) inductive family so that all
recursion over documents is structural and reduces in the kernel. -/

mutual
inductive JVal where
  | jnull
  | jbool (b : Bool)
  | jnum (n : Int)
  | jstr (s : String)
  | jarr (items : JArr)
  | jobj (fields : JObj)
inductive JArr where
  | nil
  | cons (v : JVal) (rest : JArr)
inductive JObj where
  | nil
  | cons (k : String) (v : JVal) (rest : JObj)
end

def JArr.ofList : List JVal → JArr
  | [] => .nil
  | v :: rest => .cons v (JArr.ofList rest)

def JArr.toList : JArr → List JVal
  | .nil => []
  | .cons v rest => v :: rest.toList

def JObj.ofList : List (String × JVal) → JObj
  | [] => .nil
  | (k, v) :: rest => .cons k v (JObj.ofList rest)

def JObj.toList : JObj → List (String × JVal)
  | .nil => []
  | .cons k v rest => (k, v) :: rest.toList

def JObj.keys : JObj → List String
  | .nil => []
  | .cons k _ rest => k :: rest.keys

def dictLookup : JObj → String → Option JVal
  | .nil, _ => none
  | .cons k v rest, key => if k == key then some v else dictLookup rest key

def dictHas (d : JObj) (key : String) : Bool := (dictLookup d key).isSome

def dictGetD (d : JObj) (key : String) (dflt : JVal) : JVal := (dictLookup d key).getD dflt

/-- Python `d[k] = v`: overwrite in place if the key exists (keeping its
position), otherwise append. -/
def dictSet : JObj → String → JVal → JObj
  | .nil, key, v => .cons key v .nil
  | .cons k w rest, key, v =>
    if k == key then .cons k v rest else .cons k w (dictSet rest key v)

/-- Python `del d[k]`.  On a real `dict` the binding is unique; on the
association-list model we drop every binding with the key, which agrees with
Python on every state a Python `dict` can be in. -/
def dictErase : JObj → String → JObj
  | .nil, _ => .nil
  | .cons k v rest, key =>
    if k == key then dictErase rest key else .cons k v (dictErase rest key)

/-- Plain concatenation of association lists (a proof-side helper: the
shape `dictSet` takes when the key is fresh, and the shape `setFold`
rebuilds). -/
def appendO : JObj → JObj → JObj
  | .nil, e => e
  | .cons k v rest, e => .cons k v (appendO rest e)

def JArr.any (p : JVal → Bool) : JArr → Bool
  | .nil => false
  | .cons v rest => p v || JArr.any p rest

def JVal.isArr : JVal → Bool
  | .jarr _ => true
  | _ => false

def JVal.isObj : JVal → Bool
  | .jobj _ => true
  | _ => false

/-- Python `v == lit` for a string literal `lit`: equal only when `v` is a
string with the same text (no exception for other types). -/
def jvalEqStr (v : JVal) (lit : String) : Bool :=
  match v with
  | .jstr t => t == lit
  | _ => false

/-- Python truthiness of a JSON value. -/
def pyFalsy : JVal → Bool
  | .jnull => true
  | .jbool b => !b
  | .jnum n => n == 0
  | .jstr s => s.data.isEmpty
  | .jarr items => match items with | .nil => true | _ => false
  | .jobj fields => match fields with | .nil => true | _ => false

/-- Python `sub in s` on strings (substring containment). -/
def hasSubstr (pat : List Char) : List Char → Bool
  | [] => pat.isEmpty
  | c :: rest => pat.isPrefixOf (c :: rest) || hasSubstr pat rest

/-- Python `v.get(key, dflt)`: only a `dict` has `.get` (otherwise
`AttributeError`). -/
def pyDictGet (v : JVal) (key : String) (dflt : JVal) : Except Unit JVal :=
  match v with
  | .jobj f => .ok (dictGetD f key dflt)
  | _ => .error ()

/-- Python `key in v` for a string `key`: key lookup on a `dict`, membership
on a `list`, substring test on a `str`, `TypeError` otherwise. -/
def pyContainsStr (v : JVal) (key : String) : Except Unit Bool :=
  match v with
  | .jobj f => .ok (dictHas f key)
  | .jarr items => .ok (items.any (fun x => jvalEqStr x key))
  | .jstr s => .ok (hasSubstr key.data s.data)
  | _ => .error ()

/-- Python `v[key]` for a string `key`: `KeyError`/`TypeError` except on a
`dict` holding the key. -/
def pyGetItemStr (v : JVal) (key : String) : Except Unit JVal :=
  match v with
  | .jobj f =>
    match dictLookup f key with
    | some x => .ok x
    | none => .error ()
  | _ => .error ()

/-- Python `v[key] = x` for a string `key`: works on a `dict`, `TypeError`
otherwise. -/
def pySetItemStr (v : JVal) (key : String) (val : JVal) : Except Unit JVal :=
  match v with
  | .jobj f => .ok (.jobj (dictSet f key val))
  | _ => .error ()

/-- Python `del v[key]` for a string `key`: works on a `dict`, `TypeError`
otherwise. -/
def pyDelItemStr (v : JVal) (key : String) : Except Unit JVal :=
  match v with
  | .jobj f => .ok (.jobj (dictErase f key))
  | _ => .error ()

/-! ## `find_messages_in_json`

The same function appears verbatim in fix_last_message.py (11-31),
fix_markdown_issues.py (12-30) and fix_problematic_message.py (62-90): if the
node is a dict and its `"messages"` key holds a list, return that list (no
check on the elements); otherwise recurse depth-first, left-to-right, into
dict-valued children and into the dict items of list-valued children,
treating an empty recursive result as "not found" (`if result:`); non-dict
input yields `[]`.  The returned Python list value is exposed as a
`List JVal`. -/

mutual
def findMsgFields : JObj → List JVal
  | .nil => []
  | .cons _ (.jobj inner) rest =>
    let r :=
      match dictLookup inner "messages" with
      | some (.jarr l) => l.toList
      | _ => findMsgFields inner
    if r.isEmpty then findMsgFields rest else r
  | .cons _ (.jarr items) rest =>
    let r := findMsgItems items
    if r.isEmpty then findMsgFields rest else r
  | .cons _ _ rest => findMsgFields rest
def findMsgItems : JArr → List JVal
  | .nil => []
  | .cons (.jobj inner) rest =>
    let r :=
      match dictLookup inner "messages" with
      | some (.jarr l) => l.toList
      | _ => findMsgFields inner
    if r.isEmpty then findMsgItems rest else r
  | .cons _ rest => findMsgItems rest
end

def find_messages_in_json (data : JVal) : List JVal :=
  match data with
  | .jobj fields =>
    match dictLookup fields "messages" with
    | some (.jarr l) => l.toList
    | _ => findMsgFields fields
  | _ => []

/-! A full-tree check that no object node binds `"messages"` to a list
(the hypothesis of Scenario E); it also scans regions `find_messages_in_json`
never visits, such as lists nested directly inside lists. -/

mutual
def noMsgKeyFields : JObj → Bool
  | .nil => true
  | .cons _ (.jobj inner) rest => noMsgKeyFields inner && noMsgKeyFields rest
  | .cons k (.jarr items) rest =>
    !(k == "messages") && noMsgKeyItems items && noMsgKeyFields rest
  | .cons _ _ rest => noMsgKeyFields rest
def noMsgKeyItems : JArr → Bool
  | .nil => true
  | .cons (.jobj inner) rest => noMsgKeyFields inner && noMsgKeyItems rest
  | .cons (.jarr items) rest => noMsgKeyItems items && noMsgKeyItems rest
  | .cons _ rest => noMsgKeyItems rest
end

def noMessagesKey : JVal → Bool
  | .jobj fields => noMsgKeyFields fields
  | .jarr items => noMsgKeyItems items
  | _ => true

/-! ## `fix_last_tool_message` of fix_markdown_issues.py (lines 84-127)

Takes a Python `List[Dict]` (modelled `List JObj`).  Finds the index of the
last message whose `role` equals `"tool"` (the source scans from the end;
`lastToolIndex` computes the same index by preferring a match in the tail),
copies that message, rewrites its `content` through `fix_markdown_content`,
and puts the copy back.  Calling `fix_markdown_content` on a non-string
truthy content raises (`re.sub` needs a string); on falsy content the
function's `if not content` guard returns it unchanged. -/

namespace FixMarkdownIssues

def isToolMsg (m : JObj) : Bool := jvalEqStr (dictGetD m "role" .jnull) "tool"

def lastToolIndex : List JObj → Option Nat
  | [] => none
  | m :: rest =>
    match lastToolIndex rest with
    | some j => some (j + 1)
    | none => if isToolMsg m then some 0 else none

/-- `fix_markdown_content(content)` on a dynamically typed value: the
guard `if not content` returns any falsy value unchanged; a nonempty string
goes through the rewrite pipeline; any other value raises in `re.sub`. -/
def fixContentDyn (v : JVal) : Except Unit JVal :=
  if pyFalsy v then .ok v
  else
    match v with
    | .jstr s => .ok (.jstr (fix_markdown_content s))
    | _ => .error ()

def fix_last_tool_message (messages : List JObj) : Except Unit (List JObj) :=
  if messages.isEmpty then .ok messages
  else
    match lastToolIndex messages with
    | none => .ok messages
    | some i =>
      let last := messages.getD i .nil
      match fixContentDyn (dictGetD last "content" (.jstr "")) with
      | .error e => .error e
      | .ok newContent => .ok (messages.set i (dictSet last "content" newContent))

end FixMarkdownIssues

/-! ## fix_last_message.py: its `fix_last_tool_message` (33-87) and
`fix_request_body` (89-117)

Here the messages come from `find_messages_in_json`, so the elements are
arbitrary values and every attribute access is dynamic.  The source scans
for the last tool message from the end, calling `.get` on each element, so a
non-dict element raises before any earlier element is looked at. -/

namespace FixLastMessage

def lastToolIdx : List JVal → Except Unit (Option Nat)
  | [] => .ok none
  | m :: rest =>
    match lastToolIdx rest with
    | .error e => .error e
    | .ok (some j) => .ok (some (j + 1))
    | .ok none =>
      match m with
      | .jobj f => .ok (if jvalEqStr (dictGetD f "role" .jnull) "tool" then some 0 else none)
      | _ => .error ()

def fix_last_tool_message (messages : List JVal) : Except Unit (List JVal) :=
  if messages.isEmpty then .ok messages
  else
    match lastToolIdx messages with
    | .error e => .error e
    | .ok none => .ok messages
    | .ok (some i) =>
      match messages.getD i .jnull with
      | .jobj f =>
        match dictGetD f "content" (.jstr "") with
        | .jstr s =>
          if "name:\tkenyfly/luogu".data.isPrefixOf s.data then
            match splitNl s.data with
            | l0 :: l1 :: _ =>
              let simplified : String := ⟨l0⟩ ++ "\n" ++ ⟨l1⟩ ++ "\n[仓库信息已简化]"
              .ok (messages.set i (.jobj (dictSet f "content" (.jstr simplified))))
            | _ => .ok messages
          else .ok messages
        | _ => .error ()
      | _ => .error ()

/-- `fix_request_body`: locate the messages; when none are found return the
document unchanged; otherwise patch the last tool message and reattach the
patched list where the source writes it back (`requestBody.messages`, else a
top-level `messages`).  The Python version also mutates the located list in
place through aliasing; the pure model reflects only the explicit
write-backs, which agree with the source on the envelope shapes it handles
(the mutation and the write-back coincide there). -/
def fix_request_body (request_body : JVal) : Except Unit JVal :=
  let messages := find_messages_in_json request_body
  if messages.isEmpty then .ok request_body
  else
    match fix_last_tool_message messages with
    | .error e => .error e
    | .ok fixed =>
      match pyContainsStr request_body "requestBody" with
      | .error e => .error e
      | .ok true =>
        match pyGetItemStr request_body "requestBody" with
        | .error e => .error e
        | .ok inner =>
          match pyContainsStr inner "messages" with
          | .error e => .error e
          | .ok true =>
            match pySetItemStr inner "messages" (.jarr (JArr.ofList fixed)) with
            | .error e => .error e
            | .ok inner2 => pySetItemStr request_body "requestBody" inner2
          | .ok false =>
            match pyContainsStr request_body "messages" with
            | .error e => .error e
            | .ok true => pySetItemStr request_body "messages" (.jarr (JArr.ofList fixed))
            | .ok false => .ok request_body
      | .ok false =>
        match pyContainsStr request_body "messages" with
        | .error e => .error e
        | .ok true => pySetItemStr request_body "messages" (.jarr (JArr.ofList fixed))
        | .ok false => .ok request_body

end FixLastMessage

/-! ## A model of Python `json.loads` (strict mode, as the scripts use it)

Deviations, both on the failure side only and both unreachable from the
claims' inputs: numerals with a fractional part or exponent are treated as
unparseable (numbers are modelled as integers), and a lone surrogate
`\uXXXX` escape is treated as unparseable (a Lean `Char` is a Unicode scalar
value; CPython builds a surrogate `str`).  Surrogate pairs combine as in
Python.  Everything else is Python-strict: JSON whitespace is only
`space/tab/newline/return`, unescaped control characters in strings are
rejected, objects are built by successive `d[k] = v` assignment (so a
duplicate key keeps the first position with the last value), and trailing
data after the document is rejected. -/

def isJsonWs (c : Char) : Bool := c == ' ' || c == '\t' || c == '\n' || c == '\r'

def skipJWs (cs : List Char) : List Char := cs.dropWhile isJsonWs

def isDigitC (c : Char) : Bool := 48 ≤ c.toNat && c.toNat ≤ 57

def hexVal (c : Char) : Option Nat :=
  if 48 ≤ c.toNat && c.toNat ≤ 57 then some (c.toNat - 48)
  else if 97 ≤ c.toNat && c.toNat ≤ 102 then some (c.toNat - 87)
  else if 65 ≤ c.toNat && c.toNat ≤ 70 then some (c.toNat - 55)
  else none

def hex4 (a b c d : Char) : Option Nat :=
  match hexVal a, hexVal b, hexVal c, hexVal d with
  | some va, some vb, some vc, some vd => some (((va * 16 + vb) * 16 + vc) * 16 + vd)
  | _, _, _, _ => none

def escMap : Char → Option Char
  | '"' => some '"'
  | '\\' => some '\\'
  | '/' => some '/'
  | 'b' => some (Char.ofNat 8)
  | 'f' => some (Char.ofNat 12)
  | 'n' => some '\n'
  | 'r' => some '\r'
  | 't' => some '\t'
  | _ => none

/-- String body parser, after the opening quote. -/
def parseJStrAux (acc : List Char) : List Char → Option (String × List Char)
  | '"' :: rest => some (⟨acc.reverse⟩, rest)
  | '\\' :: 'u' :: a :: b :: c :: d :: rest =>
    match hex4 a b c d with
    | some n =>
      if 0xD800 ≤ n && n ≤ 0xDBFF then
        match rest with
        | '\\' :: 'u' :: a2 :: b2 :: c2 :: d2 :: rest2 =>
          match hex4 a2 b2 c2 d2 with
          | some m =>
            if 0xDC00 ≤ m && m ≤ 0xDFFF then
              parseJStrAux (Char.ofNat (0x10000 + (n - 0xD800) * 0x400 + (m - 0xDC00)) :: acc) rest2
            else none
          | none => none
        | _ => none
      else if 0xDC00 ≤ n && n ≤ 0xDFFF then none
      else parseJStrAux (Char.ofNat n :: acc) rest
    | none => none
  | '\\' :: e :: rest =>
    match escMap e with
    | some ch => parseJStrAux (ch :: acc) rest
    | none => none
  | c :: rest => if c.toNat < 0x20 then none else parseJStrAux (c :: acc) rest
  | [] => none

def digitsToNat (acc : Nat) : List Char → Nat
  | [] => acc
  | c :: rest => digitsToNat (acc * 10 + (c.toNat - 48)) rest

/-- JSON unsigned-integer token: `0`, or a nonzero digit followed by digits.
A longer literal starting `0` stops after the `0` (the leftover digit then
fails in the surrounding grammar, as it does in Python). -/
def parseUIntTok : List Char → Option (Nat × List Char)
  | '0' :: rest => some (0, rest)
  | c :: rest =>
    if isDigitC c then
      some (digitsToNat (c.toNat - 48) (rest.takeWhile isDigitC), rest.dropWhile isDigitC)
    else none
  | [] => none

def parseIntTok : List Char → Option (Int × List Char)
  | '-' :: rest => (parseUIntTok rest).map (fun p => (-(p.1 : Int), p.2))
  | cs => (parseUIntTok cs).map (fun p => ((p.1 : Int), p.2))

/-- Python dict construction (successive `d[key] = v`). -/
def setFoldAux (d : JObj) : List (String × JVal) → JObj
  | [] => d
  | (k, v) :: rest => setFoldAux (dictSet d k v) rest

def setFold (ms : List (String × JVal)) : JObj := setFoldAux .nil ms

/-! The value parser expects its input pre-stripped of leading whitespace
(every call site strips).  It is fueled: fuel drops by one per call and
every cycle through the mutual trio consumes at least one input character
(`[`/`{` on entering a list or object, the element or the comma inside one),
so at most two calls happen per input character and the `2*length + 2` fuel
of `loads` never runs out on an accepted document. -/

mutual
def parseVal : Nat → List Char → Option (JVal × List Char)
  | 0, _ => none
  | fuel + 1, cs =>
    match cs with
    | 'n' :: 'u' :: 'l' :: 'l' :: r => some (.jnull, r)
    | 't' :: 'r' :: 'u' :: 'e' :: r => some (.jbool true, r)
    | 'f' :: 'a' :: 'l' :: 's' :: 'e' :: r => some (.jbool false, r)
    | '"' :: r =>
      match parseJStrAux [] r with
      | some (s, r2) => some (.jstr s, r2)
      | none => none
    | '[' :: r =>
      match skipJWs r with
      | ']' :: r2 => some (.jarr .nil, r2)
      | r1 =>
        match parseElems fuel r1 with
        | some (es, r2) => some (.jarr (JArr.ofList es), r2)
        | none => none
    | '\x7b' :: r =>
      match skipJWs r with
      | '\x7d' :: r2 => some (.jobj .nil, r2)
      | r1 =>
        match parseMembers fuel r1 with
        | some (ms, r2) => some (.jobj (setFold ms), r2)
        | none => none
    | c :: r =>
      if c == '-' || isDigitC c then
        match parseIntTok (c :: r) with
        | some (n, r2) => some (.jnum n, r2)
        | none => none
      else none
    | [] => none
def parseElems : Nat → List Char → Option (List JVal × List Char)
  | 0, _ => none
  | fuel + 1, cs =>
    match parseVal fuel cs with
    | some (v, r) =>
      match skipJWs r with
      | ',' :: r2 =>
        match parseElems fuel (skipJWs r2) with
        | some (vs, r3) => some (v :: vs, r3)
        | none => none
      | ']' :: r2 => some ([v], r2)
      | _ => none
    | none => none
def parseMembers : Nat → List Char → Option (List (String × JVal) × List Char)
  | 0, _ => none
  | fuel + 1, cs =>
    match cs with
    | '"' :: r =>
      match parseJStrAux [] r with
      | some (key, r1) =>
        match skipJWs r1 with
        | ':' :: r2 =>
          match parseVal fuel (skipJWs r2) with
          | some (v, r3) =>
            match skipJWs r3 with
            | ',' :: r4 =>
              match parseMembers fuel (skipJWs r4) with
              | some (ms, r5) => some ((key, v) :: ms, r5)
              | none => none
            | '\x7d' :: r4 => some ([(key, v)], r4)
            | _ => none
          | none => none
        | _ => none
      | none => none
    | _ => none
end

def loads (s : String) : Option JVal :=
  let cs := skipJWs s.data
  match parseVal (2 * cs.length + 2) cs with
  | some (v, r) => if (skipJWs r).isEmpty then some v else none
  | none => none

/-! ## A model of `json.dumps(..., ensure_ascii=False)`

Python's default separators: `", "` between items and members, `": "` after
a key.  With `ensure_ascii=False` only `"`, `\`, and the control characters
below `0x20` are escaped (named escapes for the common five, lowercase
`\u00xx` otherwise); all other characters pass through raw. -/

def hexDigitL (n : Nat) : Char := if n < 10 then Char.ofNat (48 + n) else Char.ofNat (87 + n)

def escapeJChar (c : Char) : List Char :=
  if c == '"' then ['\\', '"']
  else if c == '\\' then ['\\', '\\']
  else if c == '\n' then ['\\', 'n']
  else if c == '\r' then ['\\', 'r']
  else if c == '\t' then ['\\', 't']
  else if c.toNat == 8 then ['\\', 'b']
  else if c.toNat == 12 then ['\\', 'f']
  else if c.toNat < 0x20 then
    ['\\', 'u', '0', '0', hexDigitL (c.toNat / 16), hexDigitL (c.toNat % 16)]
  else [c]

def escapeChars : List Char → List Char
  | [] => []
  | c :: rest => escapeJChar c ++ escapeChars rest

def quoteJStr (s : String) : List Char := '"' :: (escapeChars s.data ++ ['"'])

/-- Decimal digits of `n`, most significant first, onto `acc`; fueled
(`n` strictly shrinks by division, so fuel `n + 1` suffices). -/
def natDecAux : Nat → Nat → List Char → List Char
  | 0, _, acc => acc
  | fuel + 1, n, acc =>
    let d := Char.ofNat (48 + n % 10)
    if n < 10 then d :: acc else natDecAux fuel (n / 10) (d :: acc)

def natDec (n : Nat) : List Char := natDecAux (n + 1) n []

def intChars (i : Int) : List Char := (if i < 0 then ['-'] else []) ++ natDec i.natAbs

mutual
def dumpsVal : JVal → List Char
  | .jnull => ['n', 'u', 'l', 'l']
  | .jbool true => ['t', 'r', 'u', 'e']
  | .jbool false => ['f', 'a', 'l', 's', 'e']
  | .jnum n => intChars n
  | .jstr s => quoteJStr s
  | .jarr items => '[' :: (dumpsElems items ++ [']'])
  | .jobj fields => '\x7b' :: (dumpsMembers fields ++ ['\x7d'])
def dumpsElems : JArr → List Char
  | .nil => []
  | .cons v rest => dumpsVal v ++ dumpsElemsTail rest
def dumpsElemsTail : JArr → List Char
  | .nil => []
  | .cons v rest => ',' :: ' ' :: (dumpsVal v ++ dumpsElemsTail rest)
def dumpsMembers : JObj → List Char
  | .nil => []
  | .cons k v rest => quoteJStr k ++ ':' :: ' ' :: (dumpsVal v ++ dumpsMembersTail rest)
def dumpsMembersTail : JObj → List Char
  | .nil => []
  | .cons k v rest => ',' :: ' ' :: (quoteJStr k ++ ':' :: ' ' :: (dumpsVal v ++ dumpsMembersTail rest))
end

def dumps (v : JVal) : String := ⟨dumpsVal v⟩

/-! ## `fix_tool_calls` (fix_request_body.py, lines 10-60) -/

namespace FixRequestBody

/-- Python `str.lower()` restricted to ASCII (the tool names in scope are
ASCII identifiers; Python lowers the rest of Unicode too). -/
def pyLowerChar (c : Char) : Char :=
  if 65 ≤ c.toNat && c.toNat ≤ 90 then Char.ofNat (c.toNat + 32) else c

def pyLower (s : String) : String := ⟨s.data.map pyLowerChar⟩

/-- One `tool_call` entry of the loop body: defaults `id` to `""` and `type`
to `"function"`, lowercases `function.name`, parses string `arguments`
(substituting `{}` on parse failure), deletes a `description` key, and
rebuilds the entry with exactly `id`, `type`, `function.name`,
`function.arguments` (re-serialized).  Dynamic failures (`function` not a
dict at `.get`, `name` not a string at `.lower`, `in`/`del` on a
non-container) surface as errors, in source order. -/
def fixOneToolCall (tool_call : JObj) : Except Unit JObj :=
  let call_id := dictGetD tool_call "id" (.jstr "")
  let call_type := dictGetD tool_call "type" (.jstr "function")
  match dictGetD tool_call "function" (.jobj .nil) with
  | .jobj function_data =>
    match dictGetD function_data "name" (.jstr "") with
    | .jstr nm =>
      let original_args := dictGetD function_data "arguments" (.jstr "\x7b\x7d")
      let args_dict : JVal :=
        match original_args with
        | .jstr s => (loads s).getD (.jobj .nil)
        | v => v
      match pyContainsStr args_dict "description" with
      | .error e => .error e
      | .ok b =>
        match (if b then pyDelItemStr args_dict "description" else .ok args_dict) with
        | .error e => .error e
        | .ok args2 =>
          .ok (.cons "id" call_id (.cons "type" call_type
               (.cons "function" (.jobj (.cons "name" (.jstr (pyLower nm))
                 (.cons "arguments" (.jstr (dumps args2)) .nil))) .nil)))
    | _ => .error ()
  | _ => .error ()

def fix_tool_calls : List JObj → Except Unit (List JObj)
  | [] => .ok []
  | tc :: rest =>
    match fixOneToolCall tc with
    | .error e => .error e
    | .ok f =>
      match fix_tool_calls rest with
      | .ok fs => .ok (f :: fs)
      | .error e => .error e

end FixRequestBody

/-! ## Hazard freedom (the hypothesis of the no-op / idempotence claims)

`hazardFree s` holds when none of the nine rewrite steps of
`fix_markdown_content` can fire anywhere in `s`: no nested-image, badge,
link, bold or backtick construct (the corresponding matcher fails at every
position), no occurrence of the literal hazards `%2B`, a double backslash
(equivalently, no run of two or more backslashes), `name:` followed by a
tab, and no `#` at a line start. -/

def noMatchAll (m : List Char → Option (List Char × Nat)) : List Char → Bool
  | [] => true
  | c :: rest => (m (c :: rest)).isNone && noMatchAll m rest

def noHashAtLineStart : Bool → List Char → Bool
  | _, [] => true
  | atStart, c :: rest => !(atStart && c == '#') && noHashAtLineStart (c == '\n') rest

def hazardFree (s : String) : Bool :=
  noMatchAll nestedImageMatch s.data &&
  noMatchAll (litMatch "%2B".data "+".data) s.data &&
  noMatchAll (litMatch ['\\', '\\'] ['/']) s.data &&
  noMatchAll (litMatch "name:\t".data "name: ".data) s.data &&
  noMatchAll badgeMatch s.data &&
  noMatchAll linkMatch s.data &&
  noMatchAll boldMatch s.data &&
  noMatchAll codeMatch s.data &&
  noHashAtLineStart true s.data

/-! Reference forms for the corrected claims: pairwise backslash collapse
and whole-whitespace-run collapse, written in the plainest recursive way. -/

def backslashPairSpec : List Char → List Char
  | [] => []
  | [c] => [c]
  | c :: c2 :: rest =>
    if c = '\\' ∧ c2 = '\\' then '/' :: backslashPairSpec rest
    else c :: backslashPairSpec (c2 :: rest)

def collapseSpecF : Nat → List Char → List Char
  | 0, s => s
  | _, [] => []
  | fuel + 1, c :: rest =>
    if isPyWs c then ' ' :: collapseSpecF fuel (rest.dropWhile isPyWs)
    else c :: collapseSpecF fuel rest

def collapseSpec (s : List Char) : List Char := collapseSpecF s.length s

/-! ## Canonical values and well-formed tool calls (for the tool-call claims)

`CanonV` carries what `loads` guarantees about its output: object keys are
pairwise distinct at every level (the parser builds objects by Python's
`d[k] = v`).  `goodToolCall` is the well-formedness under which
`fix_tool_calls` cannot raise and keeps its object invariant: a `function`
field (when present) that is a dict, whose `name` (when present) is a
string and whose `arguments` (when present) is a string that either fails
to parse or parses to a JSON object. -/

mutual
inductive CanonV : JVal → Prop where
  | cnull : CanonV .jnull
  | cbool (b : Bool) : CanonV (.jbool b)
  | cnum (n : Int) : CanonV (.jnum n)
  | cstr (s : String) : CanonV (.jstr s)
  | carr (items : JArr) : CanonA items → CanonV (.jarr items)
  | cobj (fields : JObj) : CanonO fields → fields.keys.Nodup → CanonV (.jobj fields)
inductive CanonA : JArr → Prop where
  | anil : CanonA .nil
  | acons (v : JVal) (rest : JArr) : CanonV v → CanonA rest → CanonA (.cons v rest)
inductive CanonO : JObj → Prop where
  | onil : CanonO .nil
  | ocons (k : String) (v : JVal) (rest : JObj) : CanonV v → CanonO rest → CanonO (.cons k v rest)
end

def goodArguments (v : JVal) : Bool :=
  match v with
  | .jstr s =>
    match loads s with
    | some (.jobj _) => true
    | some _ => false
    | none => true
  | _ => false

def goodToolCall (tc : JObj) : Bool :=
  match dictLookup tc "function" with
  | none => true
  | some (.jobj f) =>
    (match dictLookup f "name" with
     | none => true
     | some (.jstr _) => true
     | some _ => false) &&
    (match dictLookup f "arguments" with
     | none => true
     | some v => goodArguments v)
  | some _ => false

/-- Does a (normalized) tool call have a lowercase `function.name`? -/
def toolCallNameLower (tc : JObj) : Bool :=
  match dictLookup tc "function" with
  | some (.jobj f) =>
    match dictLookup f "name" with
    | some (.jstr s) => FixRequestBody.pyLower s == s
    | _ => false
  | _ => false

/-- Does a (normalized) tool call have a string `function.arguments` that
parses as a JSON object with no `description` key? -/
def toolCallArgsCleanObj (tc : JObj) : Bool :=
  match dictLookup tc "function" with
  | some (.jobj f) =>
    match dictLookup f "arguments" with
    | some (.jstr s) =>
      match loads s with
      | some (.jobj fs) => !(dictHas fs "description")
      | _ => false
    | _ => false
  | _ => false

/-! # Theorems

First the generic scanner facts: a scan on which the matcher never fires is
the identity.  `noMatchAll`/`noHashAtLineStart` walk the same suffixes the
scanner walks, so the proofs are directking inductions on the fuel. -/

theorem pySub_id (m : List Char → Option (List Char × Nat)) :
    ∀ (fuel : Nat) (s : List Char), noMatchAll m s = true → pySub m fuel s = s := by
  intro fuel
  induction fuel with
  | zero => intro s _; cases s <;> rfl
  | succ fuel ih =>
    intro s h
    match s with
    | [] => rfl
    | c :: rest =>
      simp only [noMatchAll, Bool.and_eq_true, Option.isNone_iff_eq_none] at h
      simp only [pySub, h.1]
      exact congrArg (c :: ·) (ih rest h.2)

theorem applySub_id (m : List Char → Option (List Char × Nat)) (s : List Char)
    (h : noMatchAll m s = true) : applySub m s = s :=
  pySub_id m s.length s h

theorem stripHeadsF_id :
    ∀ (fuel : Nat) (b : Bool) (s : List Char),
      noHashAtLineStart b s = true → stripHeadsF fuel b s = s := by
  intro fuel
  induction fuel with
  | zero => intro b s _; cases s <;> rfl
  | succ fuel ih =>
    intro b s h
    match s with
    | [] => rfl
    | c :: rest =>
      simp only [noHashAtLineStart, Bool.and_eq_true, Bool.not_eq_true'] at h
      simp only [stripHeadsF, h.1]
      exact congrArg (c :: ·) (ih _ rest h.2)

/-- A hazard-free string is a fixed point of the whole rewrite pipeline. -/
theorem hazardFree_fixpoint (s : String) (h : hazardFree s = true) :
    fix_markdown_content s = s := by
  obtain ⟨d⟩ := s
  simp only [hazardFree, Bool.and_eq_true] at h
  obtain ⟨⟨⟨⟨⟨⟨⟨⟨h1, h2⟩, h3⟩, h4⟩, h5⟩, h6⟩, h7⟩, h8⟩, h9⟩ := h
  unfold fix_markdown_content
  split
  · rfl
  · simp only [replaceAll, fixWindowsPaths, stripHeads,
      applySub_id _ _ h1, applySub_id _ _ h2, applySub_id _ _ h3, applySub_id _ _ h4,
      applySub_id _ _ h5, applySub_id _ _ h6, applySub_id _ _ h7, applySub_id _ _ h8]
    rw [stripHeadsF_id _ _ _ h9]

/-- C2 (confirmed).  A text containing none of the hazard patterns — no
markdown nested-image/image/link construct (the step-1/5/6 matchers fail at
every position), no double backslash (hence no run of two or more
backslashes), no `%2B`, no `name:` + tab, no `**...**` or `` `...` ``
emphasis construct, no `#` at a line start — is returned byte-for-byte
unchanged by `fix_markdown_content`. -/
theorem fix_markdown_content_noop_on_clean (t : String) (h : hazardFree t = true) :
    fix_markdown_content t = t :=
  hazardFree_fixpoint t h

theorem fix_markdown_content_noop_on_clean_witness :
    hazardFree "hello, world" = true ∧ fix_markdown_content "hello, world" = "hello, world" :=
  ⟨by decide, fix_markdown_content_noop_on_clean "hello, world" (by decide)⟩

/-- C1 counterexample.  Sanitization is not idempotent: on the input
`` "``a``" `` the first pass yields `` "`a`" `` (the inner pair is rewritten,
the two stray backticks then flank the body), and the second pass collapses
that to `"a"`. -/
theorem fix_markdown_content_not_idempotent :
    fix_markdown_content (fix_markdown_content "``a``") ≠ fix_markdown_content "``a``" := by
  decide

/-- C1 amended (corrected).  Applying the full rule set twice yields the
same result as applying it once, provided the output of the first
application is itself free of the hazard patterns; on outputs that still
contain a hazard (as with `` "``a``" ``, whose first pass leaves a backtick
pair) a second pass can rewrite further. -/
theorem fix_markdown_content_idempotent_on_clean_output (t : String)
    (h : hazardFree (fix_markdown_content t) = true) :
    fix_markdown_content (fix_markdown_content t) = fix_markdown_content t :=
  hazardFree_fixpoint _ h

theorem fix_markdown_content_idempotent_on_clean_output_witness :
    hazardFree (fix_markdown_content "# title\nsome **bold** text") = true ∧
    fix_markdown_content (fix_markdown_content "# title\nsome **bold** text") =
      fix_markdown_content "# title\nsome **bold** text" :=
  ⟨by decide, fix_markdown_content_idempotent_on_clean_output "# title\nsome **bold** text" (by decide)⟩

theorem length_dropWhile_le (p : Char → Bool) (l : List Char) :
    (l.dropWhile p).length ≤ l.length := by
  induction l with
  | nil => exact Nat.le_refl 0
  | cons c rest ih =>
    by_cases h : p c
    · simp only [List.dropWhile_cons, h, if_pos, List.length_cons]
      omega
    · simp [List.dropWhile_cons, h]

theorem drop_length_takeWhile (p : Char → Bool) (l : List Char) :
    l.drop (l.takeWhile p).length = l.dropWhile p := by
  induction l with
  | nil => rfl
  | cons c rest ih =>
    by_cases h : p c <;> simp [List.takeWhile_cons, List.dropWhile_cons, h, ih]

/-! ## C5: the path-separator step -/

/-- The step-3 scanner is exactly pairwise backslash collapse. -/
theorem pySub_backslash :
    ∀ (fuel : Nat) (s : List Char), s.length ≤ fuel →
      pySub (litMatch ['\\', '\\'] ['/']) fuel s = backslashPairSpec s := by
  intro fuel
  induction fuel with
  | zero =>
    intro s h
    have : s = [] := List.eq_nil_of_length_eq_zero (Nat.le_zero.mp h)
    subst this; rfl
  | succ fuel ih =>
    intro s h
    match s with
    | [] => rfl
    | [c] =>
      have hm : litMatch ['\\', '\\'] ['/'] [c] = none := by
        simp [litMatch, List.isPrefixOf]
      simp only [pySub, hm, backslashPairSpec]
      have h0 := ih [] (Nat.zero_le _)
      simpa [backslashPairSpec] using h0
    | c :: c2 :: rest =>
      simp only [List.length_cons] at h
      by_cases hpair : c = '\\' ∧ c2 = '\\'
      · obtain ⟨rfl, rfl⟩ := hpair
        have hm : litMatch ['\\', '\\'] ['/'] ('\\' :: '\\' :: rest) = some (['/'], 2) := by
          simp [litMatch, List.isPrefixOf]
        simp only [pySub, hm]
        have := ih rest (by omega)
        simp only [List.drop_succ_cons, List.drop_zero, this]
        simp [backslashPairSpec]
      · have hm : litMatch ['\\', '\\'] ['/'] (c :: c2 :: rest) = none := by
          simp only [litMatch, List.isPrefixOf, List.isPrefixOf_cons₂]
          rw [if_neg]
          intro hb
          simp only [Bool.and_eq_true, beq_iff_eq, List.isPrefixOf] at hb
          exact hpair ⟨hb.1.symm, hb.2.1.symm⟩
        simp only [pySub, hm]
        have := ih (c2 :: rest) (by simp; omega)
        simp only [this]
        rw [show backslashPairSpec (c :: c2 :: rest) =
          c :: backslashPairSpec (c2 :: rest) from by simp [backslashPairSpec, hpair]]

/-- C5 counterexample.  A maximal run of four backslashes becomes `//`, not
the single `/` the claim requires (pairs are replaced left to right, not
whole runs). -/
theorem fixWindowsPaths_counterexample :
    fixWindowsPaths "\\\\\\\\".data = "//".data ∧ ("//" : String) ≠ "/" :=
  ⟨by decide, by decide⟩

/-- C5 amended (corrected).  The path-separator step replaces each
left-to-right, non-overlapping pair of consecutive backslashes with one
forward slash and changes no other character — so a run of `2k` backslashes
becomes `k` slashes and an odd run keeps its final backslash — and on
Scenario B's doubled-backslash path it produces `C:/Users/name/file.txt`. -/
theorem fixWindowsPaths_spec :
    (∀ s : List Char, fixWindowsPaths s = backslashPairSpec s) ∧
    fixWindowsPaths "C:\\\\Users\\\\name\\\\file.txt".data = "C:/Users/name/file.txt".data :=
  ⟨fun s => pySub_backslash s.length s (Nat.le_refl _), by decide⟩

/-! ## C8: the whitespace-collapsing step -/

/-- Line 82's `\s+` scan collapses every whitespace run (newlines included)
to one space. -/
theorem pySub_ws_eq_spec :
    ∀ (fuel : Nat) (s : List Char), pySub wsRunMatch fuel s = collapseSpecF fuel s := by
  intro fuel
  induction fuel with
  | zero => intro s; cases s <;> rfl
  | succ fuel ih =>
    intro s
    match s with
    | [] => rfl
    | c :: rest =>
      by_cases h : isPyWs c
      · have hm : wsRunMatch (c :: rest) = some ([' '], 1 + (rest.takeWhile isPyWs).length) := by
          simp [wsRunMatch, h]
        have harith : 1 + (rest.takeWhile isPyWs).length - 1 = (rest.takeWhile isPyWs).length := by
          omega
        simp only [pySub, hm, harith, drop_length_takeWhile, collapseSpecF, h, if_pos, ih,
          List.singleton_append]
      · have hm : wsRunMatch (c :: rest) = none := by simp [wsRunMatch, h]
        simp only [pySub, hm, collapseSpecF, h, if_neg, ih, Bool.false_eq_true, if_false]

theorem collapseSpecF_ws_only :
    ∀ (fuel : Nat) (s : List Char), s.length ≤ fuel →
      ∀ c ∈ collapseSpecF fuel s, isPyWs c = true → c = ' ' := by
  intro fuel
  induction fuel with
  | zero =>
    intro s h
    have : s = [] := List.eq_nil_of_length_eq_zero (Nat.le_zero.mp h)
    subst this
    intro c hc
    exact absurd hc (by simp [collapseSpecF])
  | succ fuel ih =>
    intro s h c hc hws
    match s with
    | [] => exact absurd hc (by simp [collapseSpecF])
    | d :: rest =>
      simp only [List.length_cons] at h
      by_cases hd : isPyWs d
      · rw [show collapseSpecF (fuel + 1) (d :: rest) =
            ' ' :: collapseSpecF fuel (rest.dropWhile isPyWs) from by
          simp [collapseSpecF, hd]] at hc
        rcases List.mem_cons.mp hc with h1 | h1
        · exact h1
        · exact ih (rest.dropWhile isPyWs)
            (Nat.le_trans (length_dropWhile_le isPyWs rest) (by omega)) c h1 hws
      · rw [show collapseSpecF (fuel + 1) (d :: rest) =
            d :: collapseSpecF fuel rest from by simp [collapseSpecF, hd]] at hc
        rcases List.mem_cons.mp hc with h1 | h1
        · subst h1; exact absurd hws (by simp [hd])
        · exact ih rest (by omega) c h1 hws

theorem noMatchAll_tripleNl (l : List Char) (h : '\n' ∉ l) :
    noMatchAll tripleNlMatch l = true := by
  induction l with
  | nil => rfl
  | cons c rest ih =>
    simp only [List.mem_cons, not_or] at h
    have hc : (c == '\n') = false := by
      cases hb : c == '\n'
      · rfl
      · exact absurd (eq_of_beq hb) (fun he => h.1 he.symm)
    simp only [noMatchAll, Bool.and_eq_true, Option.isNone_iff_eq_none]
    exact ⟨by simp [tripleNlMatch, hc], ih h.2⟩

/-- C8 counterexample.  The claim says a lone newline (no horizontal
whitespace run, fewer than three newlines) is left intact, but line 82's
`\s+` matches it: `"a\nb"` becomes `"a b"`. -/
theorem collapse_whitespace_counterexample :
    collapse_whitespace "a\nb" = "a b" ∧ ("a b" : String) ≠ "a\nb" :=
  ⟨rfl, by decide⟩

/-- C8 amended (corrected).  The whitespace-collapsing step replaces each
run of whitespace characters — horizontal whitespace and newlines alike —
with a single space and changes no other character; consequently its output
contains no newline, and the subsequent three-newline collapse never fires. -/
theorem collapse_whitespace_spec (s : String) :
    collapse_whitespace s = ⟨collapseSpec s.data⟩ ∧ '\n' ∉ (collapse_whitespace s).data := by
  have e1 : applySub wsRunMatch s.data = collapseSpec s.data :=
    pySub_ws_eq_spec s.data.length s.data
  have hnl : '\n' ∉ collapseSpec s.data := by
    intro hm
    have := collapseSpecF_ws_only s.data.length s.data (Nat.le_refl _) '\n' hm (by decide)
    exact absurd this (by decide)
  have e2 : collapse_whitespace s = ⟨collapseSpec s.data⟩ := by
    show (⟨applySub tripleNlMatch (applySub wsRunMatch s.data)⟩ : String) = _
    rw [e1, applySub_id _ _ (noMatchAll_tripleNl _ hnl)]
  refine ⟨e2, ?_⟩
  rw [e2]
  exact hnl


/-! ## C9: truncation -/

/-- C9 (confirmed).  For any ceiling of at least 3 (the code's configured
ceiling is 500): content within the ceiling is returned unchanged, and
over-long content that does not begin with a `name:` header is truncated to
exactly the ceiling, ending in the `...` marker. -/
theorem truncate_tool_message_spec (content : String) (max_length : Nat) (h3 : 3 ≤ max_length) :
    (content.length ≤ max_length → truncate_tool_message content max_length = content) ∧
    (max_length < content.length → "name:".data.isPrefixOf content.data = false →
      (truncate_tool_message content max_length).length ≤ max_length ∧
      ∃ p : String, truncate_tool_message content max_length = p ++ "...") := by
  constructor
  · intro hle
    unfold truncate_tool_message
    rw [if_pos hle]
  · intro hgt hns
    have hnot : ¬ content.length ≤ max_length := by omega
    have e : truncate_tool_message content max_length =
        (⟨pySliceTo content.data ((max_length : Int) - 3)⟩ : String) ++ "..." := by
      unfold truncate_tool_message
      rw [if_neg hnot, hns]
      simp only [Bool.false_eq_true, if_false]
    refine ⟨?_, ⟨_, e⟩⟩
    rw [e]
    have hk : (0 : Int) ≤ (max_length : Int) - 3 := by omega
    have hslice : pySliceTo content.data ((max_length : Int) - 3)
        = content.data.take (max_length - 3) := by
      simp only [pySliceTo, hk, if_pos]
      congr 1
      omega
    rw [hslice]
    have hlen : ((⟨content.data.take (max_length - 3)⟩ : String) ++ "...").length
        = (content.data.take (max_length - 3)).length + 3 := by
      show (content.data.take (max_length - 3) ++ "...".data).length = _
      rw [List.length_append]
      rfl
    rw [hlen, List.length_take]
    have hcl : content.data.length = content.length := rfl
    omega

theorem truncate_tool_message_spec_witness :
    (truncate_tool_message ⟨List.replicate 501 'a'⟩ 500).length ≤ 500 ∧
    ∃ p : String, truncate_tool_message ⟨List.replicate 501 'a'⟩ 500 = p ++ "..." :=
  (truncate_tool_message_spec ⟨List.replicate 501 'a'⟩ 500 (by decide)).2 (by decide) (by decide)

/-! ## C6: the tree locator -/

/-- C6 counterexample.  `find_messages_in_json` keys on the literal name
`"messages"` and never checks the elements: on `{"messages": [1]}` it
returns `[1]`, a list whose element is not an object (refuting "a list is
returned only when every one of its elements is an object"), and on
`{"items": [{}]}` — a key whose value is a list all of whose elements are
objects, but not named `messages` — it returns nothing (refuting "the first
key whose value is a list of objects wins"). -/
theorem find_messages_in_json_counterexample :
    find_messages_in_json (.jobj (.cons "messages" (.jarr (.cons (.jnum 1) .nil)) .nil))
      = [.jnum 1] ∧
    (JVal.jnum 1).isObj = false ∧
    find_messages_in_json (.jobj (.cons "items" (.jarr (.cons (.jobj .nil) .nil)) .nil)) = [] :=
  ⟨rfl, rfl, rfl⟩

/-- C6 amended (corrected).  At each object node the locator tests only the
fixed key `"messages"`: if that key holds a list, the list is returned
immediately regardless of its elements' types; a non-dict document yields
the empty (not-found) result; otherwise the search recurses depth-first,
left to right, into dict-valued children and the dict items of list-valued
children, treating an empty recursive result as not-found. -/
theorem find_messages_in_json_amended :
    (∀ (fields : JObj) (l : JArr), dictLookup fields "messages" = some (.jarr l) →
      find_messages_in_json (.jobj fields) = l.toList) ∧
    (∀ d : JVal, d.isObj = false → find_messages_in_json d = []) := by
  constructor
  · intro fields l h
    simp [find_messages_in_json, h]
  · intro d h
    cases d <;> first | rfl | exact absurd h (by simp [JVal.isObj])

theorem find_messages_in_json_amended_witness :
    find_messages_in_json (.jobj (.cons "messages" (.jarr (.cons (.jbool true) .nil)) .nil))
      = [.jbool true] :=
  find_messages_in_json_amended.1
    (.cons "messages" (.jarr (.cons (.jbool true) .nil)) .nil)
    (.cons (.jbool true) .nil) rfl

/-! ## C7: the not-found path -/

theorem noMsgFields_lookup :
    ∀ (fields : JObj) (v : JVal), noMsgKeyFields fields = true →
      dictLookup fields "messages" = some v → v.isArr = false
  | .nil, v, _, hl => absurd hl (by simp [dictLookup])
  | .cons k w rest, v, hno, hl => by
    simp only [dictLookup] at hl
    by_cases hk : k == "messages"
    · rw [if_pos hk] at hl
      cases hl
      match w, hno with
      | .jobj inner, _ => rfl
      | .jnull, _ => rfl
      | .jbool b, _ => rfl
      | .jnum n, _ => rfl
      | .jstr s, _ => rfl
      | .jarr items, hno =>
        simp only [noMsgKeyFields, hk, Bool.not_true, Bool.false_and, Bool.and_eq_true,
          Bool.false_eq_true, false_and] at hno
    · rw [if_neg hk] at hl
      refine noMsgFields_lookup rest v ?_ hl
      match w, hno with
      | .jobj inner, hno =>
        simp only [noMsgKeyFields, Bool.and_eq_true] at hno
        exact hno.2
      | .jarr items, hno =>
        simp only [noMsgKeyFields, Bool.and_eq_true] at hno
        exact hno.2
      | .jnull, hno => exact hno
      | .jbool b, hno => exact hno
      | .jnum n, hno => exact hno
      | .jstr s, hno => exact hno

mutual
theorem findMsgFields_nil :
    ∀ (fields : JObj), noMsgKeyFields fields = true → findMsgFields fields = []
  | .nil, _ => rfl
  | .cons k (.jobj inner) rest, h => by
    simp only [noMsgKeyFields, Bool.and_eq_true] at h
    have hin : (match dictLookup inner "messages" with
        | some (.jarr l) => l.toList
        | _ => findMsgFields inner) = ([] : List JVal) := by
      cases hlk : dictLookup inner "messages" with
      | none => simpa [hlk] using findMsgFields_nil inner h.1
      | some v =>
        match v with
        | .jarr l => exact absurd (noMsgFields_lookup inner _ h.1 hlk) (by simp [JVal.isArr])
        | .jobj f => simpa [hlk] using findMsgFields_nil inner h.1
        | .jnull => simpa [hlk] using findMsgFields_nil inner h.1
        | .jbool b => simpa [hlk] using findMsgFields_nil inner h.1
        | .jnum n => simpa [hlk] using findMsgFields_nil inner h.1
        | .jstr s => simpa [hlk] using findMsgFields_nil inner h.1
    simp only [findMsgFields, hin, List.isEmpty_nil, if_pos]
    exact findMsgFields_nil rest h.2
  | .cons k (.jarr items) rest, h => by
    simp only [noMsgKeyFields, Bool.and_eq_true] at h
    simp only [findMsgFields, findMsgItems_nil items h.1.2, List.isEmpty_nil, if_pos]
    exact findMsgFields_nil rest h.2
  | .cons k .jnull rest, h => findMsgFields_nil rest h
  | .cons k (.jbool b) rest, h => findMsgFields_nil rest h
  | .cons k (.jnum n) rest, h => findMsgFields_nil rest h
  | .cons k (.jstr s) rest, h => findMsgFields_nil rest h
theorem findMsgItems_nil :
    ∀ (items : JArr), noMsgKeyItems items = true → findMsgItems items = []
  | .nil, _ => rfl
  | .cons (.jobj inner) rest, h => by
    simp only [noMsgKeyItems, Bool.and_eq_true] at h
    have hin : (match dictLookup inner "messages" with
        | some (.jarr l) => l.toList
        | _ => findMsgFields inner) = ([] : List JVal) := by
      cases hlk : dictLookup inner "messages" with
      | none => simpa [hlk] using findMsgFields_nil inner h.1
      | some v =>
        match v with
        | .jarr l => exact absurd (noMsgFields_lookup inner _ h.1 hlk) (by simp [JVal.isArr])
        | .jobj f => simpa [hlk] using findMsgFields_nil inner h.1
        | .jnull => simpa [hlk] using findMsgFields_nil inner h.1
        | .jbool b => simpa [hlk] using findMsgFields_nil inner h.1
        | .jnum n => simpa [hlk] using findMsgFields_nil inner h.1
        | .jstr s => simpa [hlk] using findMsgFields_nil inner h.1
    simp only [findMsgItems, hin, List.isEmpty_nil, if_pos]
    exact findMsgItems_nil rest h.2
  | .cons .jnull rest, h => findMsgItems_nil rest h
  | .cons (.jbool b) rest, h => findMsgItems_nil rest h
  | .cons (.jnum n) rest, h => findMsgItems_nil rest h
  | .cons (.jstr s) rest, h => findMsgItems_nil rest h
  | .cons (.jarr items2) rest, h => by
    simp only [noMsgKeyItems, Bool.and_eq_true] at h
    exact findMsgItems_nil rest h.2
end

theorem find_messages_nil (d : JVal) (h : noMessagesKey d = true) :
    find_messages_in_json d = [] := by
  match d with
  | .jobj fields =>
    have hf : noMsgKeyFields fields = true := h
    have hin : (match dictLookup fields "messages" with
        | some (.jarr l) => l.toList
        | _ => findMsgFields fields) = ([] : List JVal) := by
      cases hlk : dictLookup fields "messages" with
      | none => simpa [hlk] using findMsgFields_nil fields hf
      | some v =>
        match v with
        | .jarr l => exact absurd (noMsgFields_lookup fields _ hf hlk) (by simp [JVal.isArr])
        | .jobj f => simpa [hlk] using findMsgFields_nil fields hf
        | .jnull => simpa [hlk] using findMsgFields_nil fields hf
        | .jbool b => simpa [hlk] using findMsgFields_nil fields hf
        | .jnum n => simpa [hlk] using findMsgFields_nil fields hf
        | .jstr s => simpa [hlk] using findMsgFields_nil fields hf
    simpa [find_messages_in_json] using hin
  | .jarr items => rfl
  | .jnull => rfl
  | .jbool b => rfl
  | .jnum n => rfl
  | .jstr s => rfl

/-- C7 (confirmed).  On a document in which no object node binds `messages`
to a list, the locator reports not-found (the empty list) and
`fix_request_body` returns the document unchanged. -/
theorem fix_request_body_noop_when_no_messages (d : JVal) (h : noMessagesKey d = true) :
    find_messages_in_json d = [] ∧ FixLastMessage.fix_request_body d = .ok d := by
  have hf := find_messages_nil d h
  exact ⟨hf, by simp [FixLastMessage.fix_request_body, hf]⟩

theorem fix_request_body_noop_when_no_messages_witness :
    noMessagesKey (.jobj (.cons "model" (.jstr "m") .nil)) = true ∧
    FixLastMessage.fix_request_body (.jobj (.cons "model" (.jstr "m") .nil)) =
      .ok (.jobj (.cons "model" (.jstr "m") .nil)) :=
  ⟨rfl, (fix_request_body_noop_when_no_messages (.jobj (.cons "model" (.jstr "m") .nil)) rfl).2⟩

/-! ## C4: the markdown patcher's frame -/

theorem dictLookup_dictSet_ne :
    ∀ (d : JObj) (key k : String) (v : JVal), k ≠ key →
      dictLookup (dictSet d key v) k = dictLookup d k
  | .nil, key, k, v, h => by
    simp only [dictSet, dictLookup]
    rw [if_neg]
    intro hb
    exact h (beq_iff_eq.mp hb).symm
  | .cons k0 w rest, key, k, v, h => by
    by_cases h0 : (k0 == key) = true
    · have hkk : k0 = key := beq_iff_eq.mp h0
      simp only [dictSet, h0, if_pos, dictLookup]
      have hek : (k0 == k) = false := by
        cases hb : k0 == k
        · rfl
        · exact absurd (beq_iff_eq.mp hb ▸ hkk : k = key) h
      rw [hek]
      simp
    · simp only [dictSet, h0, Bool.false_eq_true, if_false, dictLookup]
      by_cases hex : (k0 == k) = true
      · rw [hex]; simp
      · simp only [hex, Bool.false_eq_true, if_false]
        exact dictLookup_dictSet_ne rest key k v h

theorem getD_set_ne :
    ∀ (l : List JObj) (i j : Nat) (a : JObj), i ≠ j →
      (l.set i a).getD j .nil = l.getD j .nil
  | [], _, _, _, _ => by simp
  | x :: xs, 0, 0, a, h => absurd rfl h
  | x :: xs, 0, j + 1, a, h => rfl
  | x :: xs, i + 1, 0, a, h => rfl
  | x :: xs, i + 1, j + 1, a, h => getD_set_ne xs i j a (by omega)

theorem getD_set_self :
    ∀ (l : List JObj) (i : Nat) (a : JObj), i < l.length → (l.set i a).getD i .nil = a
  | [], i, a, h => absurd h (by simp)
  | x :: xs, 0, a, _ => rfl
  | x :: xs, i + 1, a, h => getD_set_self xs i a (by simpa using h)

theorem lastToolIndex_lt :
    ∀ (msgs : List JObj) (i : Nat),
      FixMarkdownIssues.lastToolIndex msgs = some i → i < msgs.length
  | [], i, h => by simp [FixMarkdownIssues.lastToolIndex] at h
  | m :: rest, i, h => by
    simp only [FixMarkdownIssues.lastToolIndex] at h
    cases hr : FixMarkdownIssues.lastToolIndex rest with
    | some j =>
      rw [hr] at h
      have hij : i = j + 1 := (Option.some.inj h).symm
      have := lastToolIndex_lt rest j hr
      simp only [List.length_cons]
      omega
    | none =>
      rw [hr] at h
      by_cases ht : FixMarkdownIssues.isToolMsg m
      · simp only [ht, if_pos] at h
        have : i = 0 := (Option.some.inj h).symm
        simp [this]
      · simp only [ht, Bool.false_eq_true, if_false] at h
        cases h

/-- C4 (confirmed).  Whenever `fix_last_tool_message` returns (it raises
only if the selected message's `content` is a truthy non-string), the
output list has the same length, every non-selected message is unchanged,
and every message — the selected one included — agrees with its original
on every key other than `content`; in particular (`k := "role"`) the roles
are the same, in the same order. -/
theorem fix_last_tool_message_frame (msgs out : List JObj)
    (h : FixMarkdownIssues.fix_last_tool_message msgs = .ok out) :
    out.length = msgs.length ∧
    (∀ i : Nat, FixMarkdownIssues.lastToolIndex msgs ≠ some i →
      out.getD i .nil = msgs.getD i .nil) ∧
    (∀ (i : Nat) (k : String), k ≠ "content" →
      dictLookup (out.getD i .nil) k = dictLookup (msgs.getD i .nil) k) := by
  unfold FixMarkdownIssues.fix_last_tool_message at h
  by_cases he : msgs.isEmpty
  · rw [if_pos he] at h
    cases h
    exact ⟨rfl, fun _ _ => rfl, fun _ _ _ => rfl⟩
  · rw [if_neg he] at h
    cases hL : FixMarkdownIssues.lastToolIndex msgs with
    | none =>
      rw [hL] at h
      cases h
      exact ⟨rfl, fun _ _ => rfl, fun _ _ _ => rfl⟩
    | some i0 =>
      rw [hL] at h
      dsimp only at h
      cases hfc : FixMarkdownIssues.fixContentDyn
          (dictGetD (msgs.getD i0 .nil) "content" (.jstr "")) with
      | error e => rw [hfc] at h; cases h
      | ok newC =>
        rw [hfc] at h
        cases h
        refine ⟨List.length_set .., ?_, ?_⟩
        · intro i hi
          exact getD_set_ne msgs i0 i _ (fun he2 => hi (by rw [he2]))
        · intro i k hk
          by_cases hii : i = i0
          · subst hii
            rw [getD_set_self msgs i _ (lastToolIndex_lt msgs i hL)]
            exact dictLookup_dictSet_ne _ _ _ _ hk
          · rw [getD_set_ne msgs i0 i _ (fun x => hii x.symm)]

theorem fix_last_tool_message_frame_witness :
    FixMarkdownIssues.fix_last_tool_message
        [JObj.cons "role" (.jstr "tool") (JObj.cons "content" (.jstr "**x**") .nil)]
      = .ok [JObj.cons "role" (.jstr "tool") (JObj.cons "content" (.jstr "x") .nil)] ∧
    [JObj.cons "role" (.jstr "tool") (JObj.cons "content" (.jstr "x") .nil)].length
      = [JObj.cons "role" (.jstr "tool") (JObj.cons "content" (.jstr "**x**") .nil)].length ∧
    dictLookup ([JObj.cons "role" (.jstr "tool") (JObj.cons "content" (.jstr "x") .nil)].getD 0 .nil)
        "role"
      = dictLookup ([JObj.cons "role" (.jstr "tool")
          (JObj.cons "content" (.jstr "**x**") .nil)].getD 0 .nil) "role" :=
  ⟨rfl,
   (fix_last_tool_message_frame
     [JObj.cons "role" (.jstr "tool") (JObj.cons "content" (.jstr "**x**") .nil)]
     [JObj.cons "role" (.jstr "tool") (JObj.cons "content" (.jstr "x") .nil)] rfl).1,
   (fix_last_tool_message_frame
     [JObj.cons "role" (.jstr "tool") (JObj.cons "content" (.jstr "**x**") .nil)]
     [JObj.cons "role" (.jstr "tool") (JObj.cons "content" (.jstr "x") .nil)] rfl).2.2
     0 "role" (by decide)⟩

/-! ## C10: the exact shape of normalized tool calls -/

theorem fixOneToolCall_ok (tc : JObj) (f : JObj)
    (h : FixRequestBody.fixOneToolCall tc = .ok f) :
    ∃ (nm : String) (args2 : JVal),
      f = .cons "id" (dictGetD tc "id" (.jstr ""))
        (.cons "type" (dictGetD tc "type" (.jstr "function"))
          (.cons "function" (.jobj (.cons "name" (.jstr (FixRequestBody.pyLower nm))
            (.cons "arguments" (.jstr (dumps args2)) .nil))) .nil)) := by
  unfold FixRequestBody.fixOneToolCall at h
  dsimp only at h
  repeat' split at h
  all_goals first
    | (cases h; exact ⟨_, _, rfl⟩)
    | cases h

/-- C10 (confirmed).  Whenever `fix_tool_calls` returns, the output has one
entry per input entry, and every output entry is exactly
`{id, type, function}` with `function` exactly `{name, arguments}`, the
name a string and the arguments a (serialized JSON) string; a missing input
`type` comes out as the string `"function"` and a missing input `id` as the
empty string, so every other input key is dropped. -/
theorem fix_tool_calls_shape :
    ∀ (tcs out : List JObj), FixRequestBody.fix_tool_calls tcs = .ok out →
      out.length = tcs.length ∧
      ∀ i : Nat, i < out.length →
        (∃ (idv tyv : JVal) (nm ar : String),
          out.getD i .nil = .cons "id" idv (.cons "type" tyv (.cons "function"
            (.jobj (.cons "name" (.jstr nm) (.cons "arguments" (.jstr ar) .nil))) .nil))) ∧
        (dictLookup (tcs.getD i .nil) "type" = none →
          dictLookup (out.getD i .nil) "type" = some (.jstr "function")) ∧
        (dictLookup (tcs.getD i .nil) "id" = none →
          dictLookup (out.getD i .nil) "id" = some (.jstr ""))
  | [], out, h => by
    cases h
    exact ⟨rfl, fun i hi => absurd hi (by simp)⟩
  | tc :: rest, out, h => by
    simp only [FixRequestBody.fix_tool_calls] at h
    cases hone : FixRequestBody.fixOneToolCall tc with
    | error e => rw [hone] at h; cases h
    | ok f =>
      rw [hone] at h
      cases hrest : FixRequestBody.fix_tool_calls rest with
      | error e => rw [hrest] at h; cases h
      | ok fs =>
        rw [hrest] at h
        cases h
        obtain ⟨len, hptw⟩ := fix_tool_calls_shape rest fs hrest
        obtain ⟨nm, args2, hf⟩ := fixOneToolCall_ok tc f hone
        refine ⟨by simp [len], ?_⟩
        intro i hi
        match i with
        | 0 =>
          subst hf
          refine ⟨⟨_, _, _, _, rfl⟩, ?_, ?_⟩
          · intro hty
            simp only [List.getD_cons_zero] at hty
            show some (dictGetD tc "type" (.jstr "function")) = some (.jstr "function")
            simp [dictGetD, hty]
          · intro hid
            simp only [List.getD_cons_zero] at hid
            show some (dictGetD tc "id" (.jstr "")) = some (.jstr "")
            simp [dictGetD, hid]
        | i + 1 => exact hptw i (by simpa using hi)

theorem fix_tool_calls_shape_witness :
    FixRequestBody.fix_tool_calls [JObj.nil] =
      .ok [JObj.cons "id" (.jstr "") (.cons "type" (.jstr "function")
        (.cons "function" (.jobj (.cons "name" (.jstr "")
          (.cons "arguments" (.jstr "\x7b\x7d") .nil))) .nil))] ∧
    (∃ (idv tyv : JVal) (nm ar : String),
      ([JObj.cons "id" (.jstr "") (.cons "type" (.jstr "function")
        (.cons "function" (.jobj (.cons "name" (.jstr "")
          (.cons "arguments" (.jstr "\x7b\x7d") .nil))) .nil))].getD 0 .nil)
        = .cons "id" idv (.cons "type" tyv (.cons "function"
            (.jobj (.cons "name" (.jstr nm) (.cons "arguments" (.jstr ar) .nil))) .nil))) :=
  ⟨rfl,
   ((fix_tool_calls_shape [JObj.nil]
      [JObj.cons "id" (.jstr "") (.cons "type" (.jstr "function")
        (.cons "function" (.jobj (.cons "name" (.jstr "")
          (.cons "arguments" (.jstr "\x7b\x7d") .nil))) .nil))] rfl).2 0 (by decide)).1⟩

/-! ## Toward C3: the dumps/loads roundtrip, part 1 - characters and digits
(preceded by one deferred equation about the tree locator) -/

/-- The recursive call on a dict-valued child inside
`findMsgFields`/`findMsgItems` is the inlined text of
`find_messages_in_json (.jobj inner)` (inlined for structural recursion);
this equation records that reading. -/
theorem findMsgFields_cons_obj (k : String) (inner : JObj) (rest : JObj) :
    findMsgFields (.cons k (.jobj inner) rest) =
      (let r := find_messages_in_json (.jobj inner)
       if r.isEmpty then findMsgFields rest else r) := rfl

theorem char_toNat_inj (a b : Char) (h : a.toNat = b.toNat) : a = b :=
  Char.ext (UInt32.ext h)

theorem toNat_ofNat_lt (n : Nat) (h : n < 55296) : (Char.ofNat n).toNat = n := by
  have hv : Nat.isValidChar n := Or.inl h
  simp [Char.ofNat, hv]
  rfl

theorem isDigitC_toNat (c : Char) (h : isDigitC c = true) :
    48 ≤ c.toNat ∧ c.toNat ≤ 57 := by
  simpa [isDigitC] using h

theorem digit_char_toNat (m : Nat) (h : m < 10) :
    (Char.ofNat (48 + m)).toNat = 48 + m :=
  toNat_ofNat_lt _ (by omega)

theorem isDigitC_digit_char (m : Nat) (h : m < 10) :
    isDigitC (Char.ofNat (48 + m)) = true := by
  interval_cases m <;> decide

theorem natDecAux_append (n : Nat) : ∀ (fuel : Nat) (acc : List Char), n < fuel →
    natDecAux fuel n acc = natDec n ++ acc := by
  induction n using Nat.strong_induction_on with
  | _ n ih =>
    intro fuel acc hlt
    match fuel with
    | f + 1 =>
      by_cases h10 : n < 10
      · simp only [natDecAux, if_pos h10, natDec, List.cons_append, List.nil_append]
      · have hq : n / 10 < n := Nat.div_lt_self (by omega) (by omega)
        simp only [natDecAux, if_neg h10, natDec]
        rw [ih (n / 10) hq f _ (by omega), ih (n / 10) hq n _ (by omega)]
        simp

theorem natDec_eq (n : Nat) :
    natDec n = (if n < 10 then [] else natDec (n / 10)) ++ [Char.ofNat (48 + n % 10)] := by
  by_cases h10 : n < 10
  · rw [if_pos h10]
    simp only [natDec, natDecAux, if_pos h10, List.nil_append]
  · rw [if_neg h10]
    conv_lhs => rw [natDec]
    simp only [natDecAux, if_neg h10]
    rw [natDecAux_append (n / 10) n _ (Nat.div_lt_self (by omega) (by omega))]

theorem natDec_ne_nil (n : Nat) : natDec n ≠ [] := by
  rw [natDec_eq]; simp

theorem natDec_all_digits (n : Nat) : ∀ c ∈ natDec n, isDigitC c = true := by
  induction n using Nat.strong_induction_on with
  | _ n ih =>
    rw [natDec_eq]
    intro c hc
    rcases List.mem_append.mp hc with hl | hr
    · by_cases h10 : n < 10
      · rw [if_pos h10] at hl; cases hl
      · rw [if_neg h10] at hl
        exact ih (n / 10) (Nat.div_lt_self (by omega) (by omega)) c hl
    · rcases List.mem_singleton.mp hr with rfl
      exact isDigitC_digit_char (n % 10) (Nat.mod_lt _ (by omega))

theorem digitsToNat_append (xs : List Char) : ∀ (ys : List Char) (a : Nat),
    digitsToNat a (xs ++ ys) = digitsToNat (digitsToNat a xs) ys := by
  induction xs with
  | nil => intro ys a; rfl
  | cons x t ih =>
    intro ys a
    show digitsToNat (a * 10 + (x.toNat - 48)) (t ++ ys)
        = digitsToNat (digitsToNat (a * 10 + (x.toNat - 48)) t) ys
    exact ih ys _

theorem digitsToNat_natDec (n : Nat) : ∀ (a : Nat),
    digitsToNat a (natDec n) = a * 10 ^ (natDec n).length + n := by
  induction n using Nat.strong_induction_on with
  | _ n ih =>
    intro a
    rw [natDec_eq]
    by_cases h10 : n < 10
    · rw [if_pos h10]
      show a * 10 + ((Char.ofNat (48 + n % 10)).toNat - 48)
          = a * 10 ^ (([] : List Char) ++ [Char.ofNat (48 + n % 10)]).length + n
      rw [digit_char_toNat (n % 10) (Nat.mod_lt _ (by omega))]
      have hl : (([] : List Char) ++ [Char.ofNat (48 + n % 10)]).length = 1 := rfl
      rw [hl, pow_one]
      omega
    · have hq : n / 10 < n := Nat.div_lt_self (by omega) (by omega)
      rw [if_neg h10, digitsToNat_append, ih (n / 10) hq a, List.length_append]
      show (a * 10 ^ (natDec (n / 10)).length + n / 10) * 10 + ((Char.ofNat (48 + n % 10)).toNat - 48)
          = a * 10 ^ ((natDec (n / 10)).length + [Char.ofNat (48 + n % 10)].length) + n
      rw [digit_char_toNat (n % 10) (Nat.mod_lt _ (by omega))]
      have hl : [Char.ofNat (48 + n % 10)].length = 1 := rfl
      rw [hl, pow_succ, ← mul_assoc]
      generalize a * 10 ^ (natDec (n / 10)).length = C
      omega

theorem natDec_head (n : Nat) : ∃ c t, natDec n = c :: t ∧ isDigitC c = true ∧ (c = '0' → n = 0) := by
  induction n using Nat.strong_induction_on with
  | _ n ih =>
    by_cases h10 : n < 10
    · refine ⟨Char.ofNat (48 + n % 10), [], ?_, isDigitC_digit_char _ (Nat.mod_lt _ (by omega)), ?_⟩
      · rw [natDec_eq, if_pos h10]; rfl
      · intro h0
        have h48 : (Char.ofNat (48 + n % 10)).toNat = ('0' : Char).toNat := by rw [h0]
        rw [digit_char_toNat _ (Nat.mod_lt _ (by omega))] at h48
        have : ('0' : Char).toNat = 48 := by decide
        omega
    · have hq : n / 10 < n := Nat.div_lt_self (by omega) (by omega)
      obtain ⟨c, t, hct, hcd, hc0⟩ := ih (n / 10) hq
      refine ⟨c, t ++ [Char.ofNat (48 + n % 10)], ?_, hcd, ?_⟩
      · rw [natDec_eq, if_neg h10, hct]; rfl
      · intro h0; have := hc0 h0; omega

theorem takeWhile_append_all (p : Char → Bool) :
    ∀ (xs ys : List Char), (∀ c ∈ xs, p c = true) → (∀ c, ys.head? = some c → p c = false) →
      (xs ++ ys).takeWhile p = xs ∧ (xs ++ ys).dropWhile p = ys := by
  intro xs
  induction xs with
  | nil =>
    intro ys _ hy
    cases ys with
    | nil => exact ⟨rfl, rfl⟩
    | cons y t => simp [List.takeWhile_cons, List.dropWhile_cons, hy y rfl]
  | cons x t ih =>
    intro ys hx hy
    have hpx := hx x (List.mem_cons_self x t)
    have h2 := ih ys (fun c hc => hx c (List.mem_cons_of_mem _ hc)) hy
    simp [List.takeWhile_cons, List.dropWhile_cons, hpx, h2.1, h2.2]

theorem parseUIntTok_spec (n : Nat) (rest : List Char)
    (hrest : ∀ c, rest.head? = some c → isDigitC c = false) :
    parseUIntTok (natDec n ++ rest) = some (n, rest) := by
  by_cases hn : n = 0
  · subst hn
    have h0 : natDec 0 = ['0'] := rfl
    rw [h0]
    simp [parseUIntTok]
  · obtain ⟨c, t, hct, hcd, hc0⟩ := natDec_head n
    have hcne : c ≠ '0' := fun he => hn (hc0 he)
    rw [hct, List.cons_append, parseUIntTok.eq_def]
    split
    · rename_i x r2 heq
      have h1 : c = '0' ∧ t ++ rest = r2 := by simpa using heq
      exact absurd h1.1 hcne
    · rename_i x c2 r2 hne heq
      injection heq with h1 h2
      subst h1
      subst h2
      rw [if_pos hcd]
      have hall : ∀ d ∈ t, isDigitC d = true := fun d hd =>
        natDec_all_digits n d (by rw [hct]; exact List.mem_cons_of_mem _ hd)
      obtain ⟨htk, hdr⟩ := takeWhile_append_all isDigitC t rest hall hrest
      rw [htk, hdr]
      have hv : digitsToNat 0 (natDec n) = n := by
        rw [digitsToNat_natDec n 0, Nat.zero_mul, Nat.zero_add]
      rw [hct] at hv
      have hv2 : digitsToNat (c.toNat - 48) t = n := by
        have h3 : digitsToNat (0 * 10 + (c.toNat - 48)) t = n := hv
        simpa using h3
      rw [hv2]
    · rename_i x heq
      cases heq

theorem digit_ne_dash (c : Char) (h : isDigitC c = true) : c ≠ '-' := by
  intro he
  have h2 := isDigitC_toNat c h
  rw [he] at h2
  have h45 : ('-' : Char).toNat = 45 := by decide
  omega

theorem parseIntTok_spec (i : Int) (rest : List Char)
    (hrest : ∀ c, rest.head? = some c → isDigitC c = false) :
    parseIntTok (intChars i ++ rest) = some (i, rest) := by
  unfold intChars
  by_cases hneg : i < 0
  · rw [if_pos hneg]
    simp only [List.cons_append, List.nil_append]
    have hstep : parseIntTok ('-' :: (natDec i.natAbs ++ rest))
        = (parseUIntTok (natDec i.natAbs ++ rest)).map (fun p => (-(p.1 : Int), p.2)) := rfl
    rw [hstep, parseUIntTok_spec _ _ hrest]
    show some (-((i.natAbs : Nat) : Int), rest) = some (i, rest)
    have hi : -(((i.natAbs : Nat) : Int)) = i := by omega
    rw [hi]
  · rw [if_neg hneg]
    simp only [List.nil_append]
    obtain ⟨c, t, hct, hcd, hc0⟩ := natDec_head i.natAbs
    rw [parseIntTok.eq_def]
    split
    · rename_i x r2 heq
      exfalso
      rw [hct, List.cons_append] at heq
      have h1 : c = '-' ∧ t ++ rest = r2 := by simpa using heq
      exact digit_ne_dash c hcd h1.1
    · rename_i x hne
      rw [parseUIntTok_spec _ _ hrest]
      show some (((i.natAbs : Nat) : Int), rest) = some (i, rest)
      have hi : (((i.natAbs : Nat) : Int)) = i := by omega
      rw [hi]

/-! ## Toward C3, part 2 - the string-escape roundtrip -/

theorem hexVal_hexDigitL (k : Nat) (h : k < 16) : hexVal (hexDigitL k) = some k := by
  interval_cases k <;> decide

set_option maxHeartbeats 1600000 in
theorem parseJStrAux_other (acc : List Char) (c : Char) (tail : List Char)
    (h1 : c ≠ '"') (h2 : c ≠ '\\') (h3 : ¬ c.toNat < 0x20) :
    parseJStrAux acc (c :: tail) = parseJStrAux (c :: acc) tail := by
  rw [parseJStrAux.eq_def]
  split
  · rename_i x r heq
    have hp : c = '"' ∧ tail = r := by simpa using heq
    exact absurd hp.1 h1
  · rename_i x a b c2 d r heq
    have hp : c = '\\' ∧ tail = 'u' :: a :: b :: c2 :: d :: r := by simpa using heq
    exact absurd hp.1 h2
  · rename_i x1 e r x2 heq
    have hp : c = '\\' ∧ tail = e :: r := by simpa using heq
    exact absurd hp.1 h2
  · rename_i x1 c2 r x2 x3 x4 heq
    have hp : c = c2 ∧ tail = r := by simpa using heq
    rw [← hp.1, ← hp.2, if_neg h3]
  · rename_i x heq
    cases heq

theorem hex4_digits (m : Nat) (h : m < 32) :
    hex4 '0' '0' (hexDigitL (m / 16)) (hexDigitL (m % 16)) = some m := by
  unfold hex4
  rw [hexVal_hexDigitL _ (by omega), hexVal_hexDigitL _ (by omega)]
  rw [show hexVal '0' = some 0 from rfl]
  show some (((0 * 16 + 0) * 16 + m / 16) * 16 + m % 16) = some m
  congr 1
  omega

theorem parseJStrAux_round (cs : List Char) : ∀ (acc rest : List Char),
    parseJStrAux acc (escapeChars cs ++ '"' :: rest) = some (⟨acc.reverse ++ cs⟩, rest) := by
  induction cs with
  | nil =>
    intro acc rest
    simp only [escapeChars, List.nil_append]
    have h1 : parseJStrAux acc ('"' :: rest) = some (⟨acc.reverse⟩, rest) := rfl
    rw [h1]
    simp
  | cons c cs ih =>
    intro acc rest
    simp only [escapeChars, List.append_assoc]
    by_cases b1 : c = '"'
    · subst b1
      rw [show escapeJChar '"' = ['\\', '"'] from rfl]
      show parseJStrAux ('"' :: acc) (escapeChars cs ++ '"' :: rest) = _
      rw [ih ('"' :: acc) rest]
      simp
    · by_cases b2 : c = '\\'
      · subst b2
        rw [show escapeJChar '\\' = ['\\', '\\'] from rfl]
        show parseJStrAux ('\\' :: acc) (escapeChars cs ++ '"' :: rest) = _
        rw [ih ('\\' :: acc) rest]
        simp
      · by_cases b3 : c = '\n'
        · subst b3
          rw [show escapeJChar '\n' = ['\\', 'n'] from rfl]
          show parseJStrAux ('\n' :: acc) (escapeChars cs ++ '"' :: rest) = _
          rw [ih ('\n' :: acc) rest]
          simp
        · by_cases b4 : c = '\r'
          · subst b4
            rw [show escapeJChar '\r' = ['\\', 'r'] from rfl]
            show parseJStrAux ('\r' :: acc) (escapeChars cs ++ '"' :: rest) = _
            rw [ih ('\r' :: acc) rest]
            simp
          · by_cases b5 : c = '\t'
            · subst b5
              rw [show escapeJChar '\t' = ['\\', 't'] from rfl]
              show parseJStrAux ('\t' :: acc) (escapeChars cs ++ '"' :: rest) = _
              rw [ih ('\t' :: acc) rest]
              simp
            · by_cases b6 : c.toNat = 8
              · have hc : c = Char.ofNat 8 := char_toNat_inj _ _ (by rw [b6]; decide)
                subst hc
                rw [show escapeJChar (Char.ofNat 8) = ['\\', 'b'] from rfl]
                show parseJStrAux (Char.ofNat 8 :: acc) (escapeChars cs ++ '"' :: rest) = _
                rw [ih (Char.ofNat 8 :: acc) rest]
                simp
              · by_cases b7 : c.toNat = 12
                · have hc : c = Char.ofNat 12 := char_toNat_inj _ _ (by rw [b7]; decide)
                  subst hc
                  rw [show escapeJChar (Char.ofNat 12) = ['\\', 'f'] from rfl]
                  show parseJStrAux (Char.ofNat 12 :: acc) (escapeChars cs ++ '"' :: rest) = _
                  rw [ih (Char.ofNat 12 :: acc) rest]
                  simp
                · by_cases b8 : c.toNat < 0x20
                  · have hE : escapeJChar c = ['\\', 'u', '0', '0', hexDigitL (c.toNat / 16), hexDigitL (c.toNat % 16)] := by
                      rw [escapeJChar]
                      rw [if_neg (by simp [b1]), if_neg (by simp [b2]), if_neg (by simp [b3]),
                          if_neg (by simp [b4]), if_neg (by simp [b5]), if_neg (by simp [b6]),
                          if_neg (by simp [b7]), if_pos b8]
                    rw [hE]
                    simp only [List.cons_append, List.nil_append]
                    simp only [parseJStrAux]
                    have hs1 : ¬ ((0xD800 ≤ c.toNat && c.toNat ≤ 0xDBFF) = true) := by
                      intro hcon
                      simp only [Bool.and_eq_true, decide_eq_true_eq] at hcon
                      omega
                    have hs2 : ¬ ((0xDC00 ≤ c.toNat && c.toNat ≤ 0xDFFF) = true) := by
                      intro hcon
                      simp only [Bool.and_eq_true, decide_eq_true_eq] at hcon
                      omega
                    simp only [hex4_digits c.toNat b8]
                    rw [if_neg hs1, if_neg hs2]
                    rw [show Char.ofNat c.toNat = c from char_toNat_inj _ _ (toNat_ofNat_lt _ (by omega))]
                    rw [ih (c :: acc) rest]
                    simp
                  · have hE : escapeJChar c = [c] := by
                      rw [escapeJChar]
                      rw [if_neg (by simp [b1]), if_neg (by simp [b2]), if_neg (by simp [b3]),
                          if_neg (by simp [b4]), if_neg (by simp [b5]), if_neg (by simp [b6]),
                          if_neg (by simp [b7]), if_neg b8]
                    rw [hE]
                    simp only [List.cons_append, List.nil_append]
                    rw [parseJStrAux_other acc c _ b1 b2 b8]
                    rw [ih (c :: acc) rest]
                    simp

/-! ## Toward C3, part 3 - canonical objects, dict updates, setFold -/

theorem appendO_nil : ∀ (d : JObj), appendO d .nil = d
  | .nil => rfl
  | .cons k v rest => by rw [appendO, appendO_nil rest]

theorem appendO_assoc : ∀ (a : JObj) (b c : JObj), appendO (appendO a b) c = appendO a (appendO b c)
  | .nil, b, c => rfl
  | .cons k v rest, b, c => by rw [appendO, appendO, appendO, appendO_assoc rest b c]

theorem appendO_keys : ∀ (a : JObj) (b : JObj), (appendO a b).keys = a.keys ++ b.keys
  | .nil, b => rfl
  | .cons k v rest, b => by
    rw [appendO, JObj.keys, JObj.keys, appendO_keys rest b, List.cons_append]

theorem mem_keys_dictSet : ∀ (d : JObj) (k : String) (v : JVal) (a : String),
    a ∈ (dictSet d k v).keys ↔ a ∈ d.keys ∨ a = k
  | .nil, k, v, a => by simp [dictSet, JObj.keys]
  | .cons k2 w rest, k, v, a => by
    by_cases hk : k2 = k
    · subst hk
      rw [dictSet, if_pos (by simp)]
      simp [JObj.keys]
      intro h
      exact Or.inl h
    · rw [dictSet, if_neg (by simp [hk])]
      simp [JObj.keys, mem_keys_dictSet rest k v a]
      tauto

theorem keys_nodup_dictSet : ∀ (d : JObj) (k : String) (v : JVal),
    d.keys.Nodup → (dictSet d k v).keys.Nodup
  | .nil, k, v, _ => by simp [dictSet, JObj.keys]
  | .cons k2 w rest, k, v, h => by
    rw [JObj.keys, List.nodup_cons] at h
    by_cases hk : k2 = k
    · subst hk
      rw [dictSet, if_pos (by simp)]
      rw [JObj.keys, List.nodup_cons]
      exact h
    · rw [dictSet, if_neg (by simp [hk])]
      rw [JObj.keys, List.nodup_cons]
      constructor
      · intro hmem
        rcases (mem_keys_dictSet rest k v k2).mp hmem with h2 | h2
        · exact h.1 h2
        · exact hk h2
      · exact keys_nodup_dictSet rest k v h.2

theorem canonO_dictSet : ∀ (d : JObj) (k : String) (v : JVal),
    CanonO d → CanonV v → CanonO (dictSet d k v)
  | .nil, k, v, _, hv => CanonO.ocons k v .nil hv CanonO.onil
  | .cons k2 w rest, k, v, hd, hv => by
    cases hd with
    | ocons _ _ _ hw hrest =>
      by_cases hk : k2 = k
      · subst hk
        rw [dictSet, if_pos (by simp)]
        exact CanonO.ocons _ _ _ hv hrest
      · rw [dictSet, if_neg (by simp [hk])]
        exact CanonO.ocons _ _ _ hw (canonO_dictSet rest k v hrest hv)

theorem setFoldAux_nodup (ms : List (String × JVal)) : ∀ (d : JObj), d.keys.Nodup →
    (setFoldAux d ms).keys.Nodup := by
  induction ms with
  | nil => intro d h; exact h
  | cons p rest ih =>
    intro d h
    match p with
    | (k, v) => exact ih (dictSet d k v) (keys_nodup_dictSet d k v h)

theorem setFoldAux_canon (ms : List (String × JVal)) : ∀ (d : JObj), CanonO d →
    (∀ p ∈ ms, CanonV p.2) → CanonO (setFoldAux d ms) := by
  induction ms with
  | nil => intro d h _; exact h
  | cons p rest ih =>
    intro d h hall
    match p with
    | (k, v) =>
      exact ih (dictSet d k v) (canonO_dictSet d k v h (hall (k, v) (List.mem_cons_self _ _)))
        (fun q hq => hall q (List.mem_cons_of_mem _ hq))

theorem setFold_nodup (ms : List (String × JVal)) : (setFold ms).keys.Nodup :=
  setFoldAux_nodup ms .nil (by simp [JObj.keys])

theorem setFold_canon (ms : List (String × JVal)) (hall : ∀ p ∈ ms, CanonV p.2) :
    CanonO (setFold ms) :=
  setFoldAux_canon ms .nil CanonO.onil hall

theorem dictSet_absent : ∀ (d : JObj) (k : String) (v : JVal), k ∉ d.keys →
    dictSet d k v = appendO d (.cons k v .nil)
  | .nil, k, v, _ => rfl
  | .cons k2 w rest, k, v, h => by
    rw [JObj.keys, List.mem_cons] at h
    push_neg at h
    rw [dictSet, if_neg (by simp; exact fun he => h.1 he.symm)]
    rw [appendO, dictSet_absent rest k v h.2]

theorem setFoldAux_toList : ∀ (d : JObj) (acc : JObj),
    (∀ a ∈ d.keys, a ∉ acc.keys) → d.keys.Nodup →
    setFoldAux acc d.toList = appendO acc d
  | .nil, acc, _, _ => by rw [JObj.toList, setFoldAux, appendO_nil]
  | .cons k v rest, acc, hdisj, hnd => by
    rw [JObj.toList, setFoldAux]
    rw [JObj.keys, List.nodup_cons] at hnd
    have hkacc : k ∉ acc.keys := hdisj k (by rw [JObj.keys]; exact List.mem_cons_self _ _)
    rw [dictSet_absent acc k v hkacc]
    rw [setFoldAux_toList rest (appendO acc (.cons k v .nil)) ?disj hnd.2]
    · rw [appendO_assoc]
      rfl
    case disj =>
      intro a ha hmem
      rw [appendO_keys] at hmem
      rcases List.mem_append.mp hmem with h2 | h2
      · exact hdisj a (by rw [JObj.keys]; exact List.mem_cons_of_mem _ ha) h2
      · rw [JObj.keys, JObj.keys] at h2
        simp at h2
        subst h2
        exact hnd.1 ha

theorem setFold_toList (d : JObj) (h : d.keys.Nodup) : setFold d.toList = d := by
  rw [setFold, setFoldAux_toList d .nil (by intro a _ hmem; simp [JObj.keys] at hmem) h]
  rfl

theorem dictHas_erase_self : ∀ (d : JObj) (k : String),
    dictHas (dictErase d k) k = false
  | .nil, k => rfl
  | .cons k2 v rest, k => by
    by_cases hk : k2 = k
    · subst hk
      rw [dictErase, if_pos (by simp)]
      exact dictHas_erase_self rest k2
    · rw [dictErase, if_neg (by simp [hk])]
      rw [dictHas, dictLookup, if_neg (by simp [hk])]
      exact dictHas_erase_self rest k

theorem keys_erase_sublist : ∀ (d : JObj) (k : String),
    (dictErase d k).keys.Sublist d.keys
  | .nil, k => List.Sublist.refl _
  | .cons k2 v rest, k => by
    by_cases hk : k2 = k
    · subst hk
      rw [dictErase, if_pos (by simp)]
      rw [JObj.keys]
      exact (keys_erase_sublist rest k2).cons _
    · rw [dictErase, if_neg (by simp [hk])]
      rw [JObj.keys, JObj.keys]
      exact (keys_erase_sublist rest k).cons₂ _

theorem keys_nodup_dictErase (d : JObj) (k : String) (h : d.keys.Nodup) :
    (dictErase d k).keys.Nodup :=
  (keys_erase_sublist d k).nodup h

theorem canonO_dictErase : ∀ (d : JObj) (k : String), CanonO d → CanonO (dictErase d k)
  | .nil, k, _ => CanonO.onil
  | .cons k2 v rest, k, h => by
    cases h with
    | ocons _ _ _ hv hrest =>
      by_cases hk : k2 = k
      · subst hk
        rw [dictErase, if_pos (by simp)]
        exact canonO_dictErase rest k2 hrest
      · rw [dictErase, if_neg (by simp [hk])]
        exact CanonO.ocons _ _ _ hv (canonO_dictErase rest k hrest)

theorem canonA_ofList (es : List JVal) (h : ∀ v ∈ es, CanonV v) : CanonA (JArr.ofList es) := by
  induction es with
  | nil => exact CanonA.anil
  | cons v rest ih =>
    exact CanonA.acons v _ (h v (List.mem_cons_self _ _))
      (ih (fun w hw => h w (List.mem_cons_of_mem _ hw)))

theorem dictHas_false_of_lookup (d : JObj) (k : String) (h : dictLookup d k = none) :
    dictHas d k = false := by
  rw [dictHas, h]
  rfl

/-! ## Toward C3, part 4 - the dumps/loads roundtrip and parser canonicity -/

theorem beq_char_false (a b : Char) (h : a ≠ b) : (a == b) = false := by
  simp [h]

theorem not_ws_of_digit (c : Char) (h : isDigitC c = true) :
    isJsonWs c = false ∧ c ≠ ']' ∧ c ≠ '\x7d' := by
  have ht := isDigitC_toNat c h
  refine ⟨?_, ?_, ?_⟩
  · have h1 : c ≠ ' ' := fun he => by rw [he] at ht; revert ht; decide
    have h2 : c ≠ '\t' := fun he => by rw [he] at ht; revert ht; decide
    have h3 : c ≠ '\n' := fun he => by rw [he] at ht; revert ht; decide
    have h4 : c ≠ '\r' := fun he => by rw [he] at ht; revert ht; decide
    simp [isJsonWs, beq_char_false _ _ h1, beq_char_false _ _ h2,
      beq_char_false _ _ h3, beq_char_false _ _ h4]
  · exact fun he => by rw [he] at ht; revert ht; decide
  · exact fun he => by rw [he] at ht; revert ht; decide

theorem dumpsVal_head (v : JVal) :
    ∃ c t, dumpsVal v = c :: t ∧ isJsonWs c = false ∧ c ≠ ']' ∧ c ≠ '\x7d' := by
  cases v with
  | jnull => exact ⟨'n', _, rfl, by decide, by decide, by decide⟩
  | jbool b =>
    cases b
    · refine ⟨'f', _, rfl, ?_, ?_, ?_⟩ <;> decide
    · refine ⟨'t', _, rfl, ?_, ?_, ?_⟩ <;> decide
  | jnum n =>
    by_cases hneg : n < 0
    · refine ⟨'-', natDec n.natAbs, ?_, by decide, by decide, by decide⟩
      show intChars n = '-' :: natDec n.natAbs
      rw [intChars, if_pos hneg]
      rfl
    · obtain ⟨c, t, hct, hcd, _⟩ := natDec_head n.natAbs
      have hf := not_ws_of_digit c hcd
      refine ⟨c, t, ?_, hf.1, hf.2.1, hf.2.2⟩
      show intChars n = c :: t
      rw [intChars, if_neg hneg, List.nil_append, hct]
  | jstr s => exact ⟨'"', _, rfl, by decide, by decide, by decide⟩
  | jarr items => exact ⟨'[', _, rfl, by decide, by decide, by decide⟩
  | jobj fields => exact ⟨'\x7b', _, rfl, by decide, by decide, by decide⟩

theorem dumpsVal_len_pos (v : JVal) : 1 ≤ (dumpsVal v).length := by
  obtain ⟨c, t, hct, _, _, _⟩ := dumpsVal_head v
  rw [hct]
  simp

theorem skipJWs_cons_of (c : Char) (t : List Char) (h : isJsonWs c = false) :
    skipJWs (c :: t) = c :: t := by
  simp [skipJWs, List.dropWhile_cons, h]

theorem skipJWs_dumpsVal (v : JVal) (X : List Char) :
    skipJWs (dumpsVal v ++ X) = dumpsVal v ++ X := by
  obtain ⟨c, t, hct, hws, _, _⟩ := dumpsVal_head v
  rw [hct, List.cons_append, skipJWs_cons_of _ _ hws]

theorem arr_ofList_toList : ∀ (a : JArr), JArr.ofList a.toList = a
  | .nil => rfl
  | .cons v r => by rw [JArr.toList, JArr.ofList, arr_ofList_toList r]

theorem parseVal_lbrack (fuel : Nat) (r : List Char) :
    parseVal (fuel + 1) ('[' :: r) =
      (match skipJWs r with
       | ']' :: r2 => some (.jarr .nil, r2)
       | r1 =>
         match parseElems fuel r1 with
         | some (es, r2) => some (.jarr (JArr.ofList es), r2)
         | none => none) := rfl

theorem parseVal_lbrace (fuel : Nat) (r : List Char) :
    parseVal (fuel + 1) ('\x7b' :: r) =
      (match skipJWs r with
       | '\x7d' :: r2 => some (.jobj .nil, r2)
       | r1 =>
         match parseMembers fuel r1 with
         | some (ms, r2) => some (.jobj (setFold ms), r2)
         | none => none) := rfl

theorem match_not_rbrack (fuel : Nat) (c : Char) (Y : List Char) (hc : c ≠ ']') :
    (match c :: Y with
     | ']' :: r2 => some (JVal.jarr .nil, r2)
     | r1 =>
       match parseElems fuel r1 with
       | some (es, r2) => some (JVal.jarr (JArr.ofList es), r2)
       | none => none) =
      (match parseElems fuel (c :: Y) with
       | some (es, r2) => some (JVal.jarr (JArr.ofList es), r2)
       | none => none) := by
  split
  · rename_i r2 heq
    have hp : c = ']' ∧ Y = r2 := by simpa using heq
    exact absurd hp.1 hc
  · rfl

theorem intChars_head (i : Int) :
    ∃ c t, intChars i = c :: t ∧ (c == '-' || isDigitC c) = true := by
  by_cases hneg : i < 0
  · refine ⟨'-', natDec i.natAbs, ?_, by decide⟩
    rw [intChars, if_pos hneg]
    rfl
  · obtain ⟨c, t, hct, hcd, _⟩ := natDec_head i.natAbs
    refine ⟨c, t, ?_, by rw [hcd]; simp⟩
    rw [intChars, if_neg hneg, List.nil_append, hct]

theorem num_head_ne (c : Char) (hc : (c == '-' || isDigitC c) = true) :
    c ≠ 'n' ∧ c ≠ 't' ∧ c ≠ 'f' ∧ c ≠ '"' ∧ c ≠ '[' ∧ c ≠ '\x7b' := by
  rcases Bool.or_eq_true_iff.mp hc with h | h
  · have he : c = '-' := by simpa using h
    subst he
    exact ⟨by decide, by decide, by decide, by decide, by decide, by decide⟩
  · refine ⟨?_, ?_, ?_, ?_, ?_, ?_⟩ <;>
      exact fun he => by rw [he] at h; exact absurd h (by decide)

theorem parseVal_numTok (fuel : Nat) (c : Char) (cs : List Char)
    (hc : (c == '-' || isDigitC c) = true) :
    parseVal (fuel + 1) (c :: cs) =
      (match parseIntTok (c :: cs) with
       | some (n, r2) => some (.jnum n, r2)
       | none => none) := by
  obtain ⟨n1, n2, n3, n4, n5, n6⟩ := num_head_ne c hc
  rw [parseVal.eq_def]
  split
  · rename_i x1 x2 heq
    exact absurd heq (by omega)
  · rename_i x1 x2 f2 heq
    split
    · rename_i x r heq2
      have hp : c = 'n' ∧ cs = 'u' :: 'l' :: 'l' :: r := by simpa using heq2
      exact absurd hp.1 n1
    · rename_i x r heq2
      have hp : c = 't' ∧ cs = 'r' :: 'u' :: 'e' :: r := by simpa using heq2
      exact absurd hp.1 n2
    · rename_i x r heq2
      have hp : c = 'f' ∧ cs = 'a' :: 'l' :: 's' :: 'e' :: r := by simpa using heq2
      exact absurd hp.1 n3
    · rename_i x r heq2
      have hp : c = '"' ∧ cs = r := by simpa using heq2
      exact absurd hp.1 n4
    · rename_i x r heq2
      have hp : c = '[' ∧ cs = r := by simpa using heq2
      exact absurd hp.1 n5
    · rename_i x r heq2
      have hp : c = '\x7b' ∧ cs = r := by simpa using heq2
      exact absurd hp.1 n6
    · rename_i x c2 r2 e1 e2 e3 e4 e5 e6 heq2
      injection heq2 with h1 h2
      rw [← h1, ← h2, if_pos hc]
    · rename_i x heq2
      exact absurd heq2 (by simp)

theorem match_not_rbrace (fuel : Nat) (c : Char) (Y : List Char) (hc : c ≠ '\x7d') :
    (match c :: Y with
     | '\x7d' :: r2 => some (JVal.jobj .nil, r2)
     | r1 =>
       match parseMembers fuel r1 with
       | some (ms, r2) => some (JVal.jobj (setFold ms), r2)
       | none => none) =
      (match parseMembers fuel (c :: Y) with
       | some (ms, r2) => some (JVal.jobj (setFold ms), r2)
       | none => none) := by
  split
  · rename_i r2 heq
    have hp : c = '\x7d' ∧ Y = r2 := by simpa using heq
    exact absurd hp.1 hc
  · rfl

theorem skipJWs_quote (k : String) (Z : List Char) :
    skipJWs (quoteJStr k ++ Z) = quoteJStr k ++ Z := by
  show skipJWs ('"' :: ((escapeChars k.data ++ ['"']) ++ Z))
      = '"' :: ((escapeChars k.data ++ ['"']) ++ Z)
  exact skipJWs_cons_of '"' _ (by decide)

theorem parseMembers_quote (fuel : Nat) (r : List Char) :
    parseMembers (fuel + 1) ('"' :: r) =
      (match parseJStrAux [] r with
       | some (key, r1) =>
         match skipJWs r1 with
         | ':' :: r2 =>
           match parseVal fuel (skipJWs r2) with
           | some (v, r3) =>
             match skipJWs r3 with
             | ',' :: r4 =>
               match parseMembers fuel (skipJWs r4) with
               | some (ms, r5) => some ((key, v) :: ms, r5)
               | none => none
             | '\x7d' :: r4 => some ([(key, v)], r4)
             | _ => none
           | none => none
         | _ => none
       | none => none) := rfl

theorem rt_val : ∀ (fuel : Nat),
    (∀ (v : JVal) (rest : List Char), CanonV v → (dumpsVal v).length < fuel →
      (∀ c, rest.head? = some c → isDigitC c = false) →
      parseVal fuel (dumpsVal v ++ rest) = some (v, rest)) ∧
    (∀ (v : JVal) (items : JArr) (rest : List Char), CanonV v → CanonA items →
      (dumpsVal v).length + (dumpsElemsTail items).length + 1 < fuel →
      parseElems fuel (dumpsVal v ++ (dumpsElemsTail items ++ (']' :: rest))) =
        some (v :: items.toList, rest)) ∧
    (∀ (k : String) (v : JVal) (fields : JObj) (rest : List Char), CanonV v → CanonO fields →
      (quoteJStr k).length + (dumpsVal v).length + (dumpsMembersTail fields).length + 3 < fuel →
      parseMembers fuel
        (quoteJStr k ++ (':' :: ' ' :: (dumpsVal v ++ (dumpsMembersTail fields ++ ('\x7d' :: rest))))) =
        some ((k, v) :: fields.toList, rest)) := by
  intro fuel
  induction fuel with
  | zero =>
    refine ⟨?_, ?_, ?_⟩
    · intro v rest _ hlen _; omega
    · intro v items rest _ _ hlen; omega
    · intro k v fields rest _ _ hlen; omega
  | succ f ih =>
    refine ⟨?_, ?_, ?_⟩
    · intro v rest hcv hlen hrest
      cases v with
      | jnull => rfl
      | jbool b => cases b <;> rfl
      | jnum n =>
        obtain ⟨c, t, hct, hc⟩ := intChars_head n
        show parseVal (f + 1) (intChars n ++ rest) = some (.jnum n, rest)
        rw [hct, List.cons_append, parseVal_numTok f c (t ++ rest) hc,
            ← List.cons_append, ← hct, parseIntTok_spec n rest hrest]
      | jstr s =>
        show parseVal (f + 1) (quoteJStr s ++ rest) = some (.jstr s, rest)
        have hsh : quoteJStr s ++ rest = '"' :: (escapeChars s.data ++ ('"' :: rest)) := by
          rw [quoteJStr]
          simp [List.append_assoc]
        rw [hsh]
        show (match parseJStrAux [] (escapeChars s.data ++ '"' :: rest) with
              | some (s2, r2) => some (JVal.jstr s2, r2)
              | none => none) = some (.jstr s, rest)
        rw [parseJStrAux_round s.data [] rest]
        simp
      | jarr items =>
        cases items with
        | nil => rfl
        | cons v2 items2 =>
          cases hcv with
          | carr _ ha =>
            cases ha with
            | acons _ _ hv2 hits2 =>
              have hsh : dumpsVal (JVal.jarr (JArr.cons v2 items2)) ++ rest
                  = '[' :: (dumpsVal v2 ++ (dumpsElemsTail items2 ++ (']' :: rest))) := by
                show ('[' :: ((dumpsVal v2 ++ dumpsElemsTail items2) ++ [']'])) ++ rest = _
                simp [List.append_assoc]
              have hL : (dumpsVal (JVal.jarr (JArr.cons v2 items2))).length
                  = (dumpsVal v2).length + (dumpsElemsTail items2).length + 2 := by
                show ('[' :: ((dumpsVal v2 ++ dumpsElemsTail items2) ++ [']'])).length = _
                simp only [List.length_cons, List.length_append, List.length_nil]
              rw [hsh, parseVal_lbrack, skipJWs_dumpsVal v2 _]
              obtain ⟨c, t, hct, hws, hrb, hrc⟩ := dumpsVal_head v2
              rw [hct, List.cons_append, match_not_rbrack f c _ hrb,
                  ← List.cons_append, ← hct]
              rw [ih.2.1 v2 items2 rest hv2 hits2 (by omega)]
              show some (JVal.jarr (JArr.ofList (v2 :: items2.toList)), rest)
                  = some (JVal.jarr (JArr.cons v2 items2), rest)
              have harr : JArr.ofList (v2 :: items2.toList) = JArr.cons v2 items2 :=
                arr_ofList_toList (JArr.cons v2 items2)
              rw [harr]
      | jobj fields =>
        cases fields with
        | nil => rfl
        | cons k2 v2 fields2 =>
          cases hcv with
          | cobj _ ho hnd =>
            cases ho with
            | ocons _ _ _ hv2 hf2 =>
              have hsh : dumpsVal (JVal.jobj (JObj.cons k2 v2 fields2)) ++ rest
                  = '\x7b' :: (quoteJStr k2 ++ (':' :: ' ' ::
                      (dumpsVal v2 ++ (dumpsMembersTail fields2 ++ ('\x7d' :: rest))))) := by
                show ('\x7b' :: ((quoteJStr k2 ++ ':' :: ' ' ::
                    (dumpsVal v2 ++ dumpsMembersTail fields2)) ++ ['\x7d'])) ++ rest = _
                simp [List.append_assoc]
              have hL : (dumpsVal (JVal.jobj (JObj.cons k2 v2 fields2))).length
                  = (quoteJStr k2).length + (dumpsVal v2).length
                    + (dumpsMembersTail fields2).length + 4 := by
                show ('\x7b' :: ((quoteJStr k2 ++ ':' :: ' ' ::
                    (dumpsVal v2 ++ dumpsMembersTail fields2)) ++ ['\x7d'])).length = _
                simp only [List.length_cons, List.length_append, List.length_nil]
                omega
              rw [hsh, parseVal_lbrace, skipJWs_quote k2 _]
              rw [show quoteJStr k2 ++ (':' :: ' ' ::
                    (dumpsVal v2 ++ (dumpsMembersTail fields2 ++ ('\x7d' :: rest))))
                  = '"' :: ((escapeChars k2.data ++ ['"']) ++ (':' :: ' ' ::
                    (dumpsVal v2 ++ (dumpsMembersTail fields2 ++ ('\x7d' :: rest))))) from rfl]
              rw [match_not_rbrace f '"' _ (by decide)]
              rw [show ('"' : Char) :: ((escapeChars k2.data ++ ['"']) ++ (':' :: ' ' ::
                    (dumpsVal v2 ++ (dumpsMembersTail fields2 ++ ('\x7d' :: rest)))))
                  = quoteJStr k2 ++ (':' :: ' ' ::
                    (dumpsVal v2 ++ (dumpsMembersTail fields2 ++ ('\x7d' :: rest)))) from rfl]
              rw [ih.2.2 k2 v2 fields2 rest hv2 hf2 (by omega)]
              show some (JVal.jobj (setFold ((k2, v2) :: fields2.toList)), rest)
                  = some (JVal.jobj (JObj.cons k2 v2 fields2), rest)
              have hsf : setFold ((k2, v2) :: fields2.toList) = JObj.cons k2 v2 fields2 :=
                setFold_toList (JObj.cons k2 v2 fields2) hnd
              rw [hsf]
    · intro v items rest hv hits hlen
      cases items with
      | nil =>
        simp only [parseElems]
        rw [ih.1 v (dumpsElemsTail JArr.nil ++ (']' :: rest)) hv
            (by have h0 : (dumpsElemsTail JArr.nil).length = 0 := rfl; omega)
            (by intro c hc
                have hcc : (']' : Char) = c := by
                  rw [show dumpsElemsTail JArr.nil ++ (']' :: rest) = ']' :: rest from rfl] at hc
                  simpa using hc
                subst hcc
                decide)]
        rfl
      | cons v2 items2 =>
        cases hits with
        | acons _ _ hv2 hits2 =>
          have hT : (dumpsElemsTail (JArr.cons v2 items2)).length
              = (dumpsVal v2).length + (dumpsElemsTail items2).length + 2 := by
            show (',' :: ' ' :: (dumpsVal v2 ++ dumpsElemsTail items2)).length = _
            simp only [List.length_cons, List.length_append]
          simp only [parseElems]
          rw [ih.1 v (dumpsElemsTail (JArr.cons v2 items2) ++ (']' :: rest)) hv (by omega)
              (by intro c hc
                  have hcc : (',' : Char) = c := by
                    rw [show dumpsElemsTail (JArr.cons v2 items2) ++ (']' :: rest)
                        = ',' :: (' ' :: ((dumpsVal v2 ++ dumpsElemsTail items2)
                          ++ (']' :: rest))) from rfl] at hc
                    simpa using hc
                  subst hcc
                  decide)]
          show (match parseElems f (skipJWs (' ' :: ((dumpsVal v2 ++ dumpsElemsTail items2)
                  ++ (']' :: rest)))) with
                | some (vs, r3) => some (v :: vs, r3)
                | none => none) = some (v :: (JArr.cons v2 items2).toList, rest)
          rw [show skipJWs (' ' :: ((dumpsVal v2 ++ dumpsElemsTail items2) ++ (']' :: rest)))
              = dumpsVal v2 ++ (dumpsElemsTail items2 ++ (']' :: rest)) from by
                show skipJWs ((dumpsVal v2 ++ dumpsElemsTail items2) ++ (']' :: rest)) = _
                rw [List.append_assoc]
                exact skipJWs_dumpsVal v2 _]
          rw [ih.2.1 v2 items2 rest hv2 hits2 (by have := dumpsVal_len_pos v; omega)]
          rfl
    · intro k v fields rest hv hf hlen
      have hsh : quoteJStr k ++ (':' :: ' ' ::
            (dumpsVal v ++ (dumpsMembersTail fields ++ ('\x7d' :: rest))))
          = '"' :: (escapeChars k.data ++ ('"' :: (':' :: ' ' ::
            (dumpsVal v ++ (dumpsMembersTail fields ++ ('\x7d' :: rest)))))) := by
        rw [quoteJStr]
        simp [List.append_assoc]
      rw [hsh, parseMembers_quote, parseJStrAux_round k.data []]
      rw [show (⟨List.reverse ([] : List Char) ++ k.data⟩ : String) = k from by simp]
      show (match parseVal f (skipJWs (' ' :: (dumpsVal v ++ (dumpsMembersTail fields
              ++ ('\x7d' :: rest))))) with
            | some (w, r3) =>
              match skipJWs r3 with
              | ',' :: r4 =>
                match parseMembers f (skipJWs r4) with
                | some (ms, r5) => some ((k, w) :: ms, r5)
                | none => none
              | '\x7d' :: r4 => some ([(k, w)], r4)
              | _ => none
            | none => none) = some ((k, v) :: fields.toList, rest)
      rw [show skipJWs (' ' :: (dumpsVal v ++ (dumpsMembersTail fields ++ ('\x7d' :: rest))))
          = dumpsVal v ++ (dumpsMembersTail fields ++ ('\x7d' :: rest)) from by
            show skipJWs (dumpsVal v ++ (dumpsMembersTail fields ++ ('\x7d' :: rest))) = _
            exact skipJWs_dumpsVal v _]
      rw [ih.1 v (dumpsMembersTail fields ++ ('\x7d' :: rest)) hv (by omega)
          (by intro c hc
              cases fields with
              | nil =>
                have hcc : ('\x7d' : Char) = c := by
                  rw [show dumpsMembersTail JObj.nil ++ ('\x7d' :: rest)
                      = '\x7d' :: rest from rfl] at hc
                  simpa using hc
                subst hcc
                decide
              | cons k2 v2 fields2 =>
                have hcc : (',' : Char) = c := by
                  rw [show dumpsMembersTail (JObj.cons k2 v2 fields2) ++ ('\x7d' :: rest)
                      = ',' :: (' ' :: ((quoteJStr k2 ++ ':' :: ' ' ::
                        (dumpsVal v2 ++ dumpsMembersTail fields2)) ++ ('\x7d' :: rest))) from rfl] at hc
                  simpa using hc
                subst hcc
                decide)]
      cases fields with
      | nil => rfl
      | cons k2 v2 fields2 =>
        cases hf with
        | ocons _ _ _ hv2 hf2 =>
          have hM : (dumpsMembersTail (JObj.cons k2 v2 fields2)).length
              = (quoteJStr k2).length + (dumpsVal v2).length
                + (dumpsMembersTail fields2).length + 4 := by
            show (',' :: ' ' :: (quoteJStr k2 ++ ':' :: ' ' ::
                (dumpsVal v2 ++ dumpsMembersTail fields2))).length = _
            simp only [List.length_cons, List.length_append]
            omega
          show (match parseMembers f (skipJWs (' ' :: ((quoteJStr k2 ++ ':' :: ' ' ::
                  (dumpsVal v2 ++ dumpsMembersTail fields2)) ++ ('\x7d' :: rest)))) with
                | some (ms, r5) => some ((k, v) :: ms, r5)
                | none => none)
              = some ((k, v) :: (JObj.cons k2 v2 fields2).toList, rest)
          rw [show skipJWs (' ' :: ((quoteJStr k2 ++ ':' :: ' ' ::
                (dumpsVal v2 ++ dumpsMembersTail fields2)) ++ ('\x7d' :: rest)))
              = quoteJStr k2 ++ (':' :: ' ' ::
                (dumpsVal v2 ++ (dumpsMembersTail fields2 ++ ('\x7d' :: rest)))) from by
                show skipJWs ((quoteJStr k2 ++ ':' :: ' ' ::
                    (dumpsVal v2 ++ dumpsMembersTail fields2)) ++ ('\x7d' :: rest)) = _
                rw [List.append_assoc]
                rw [show (':' :: ' ' :: (dumpsVal v2 ++ dumpsMembersTail fields2))
                    ++ ('\x7d' :: rest)
                    = ':' :: ' ' :: (dumpsVal v2 ++ (dumpsMembersTail fields2
                      ++ ('\x7d' :: rest))) from by simp [List.append_assoc]]
                exact skipJWs_quote k2 _]
          rw [ih.2.2 k2 v2 fields2 rest hv2 hf2 (by have := dumpsVal_len_pos v; omega)]
          rfl

theorem loads_dumps (v : JVal) (h : CanonV v) : loads (dumps v) = some v := by
  have hskip : skipJWs (dumpsVal v) = dumpsVal v := by
    have h2 := skipJWs_dumpsVal v []
    simpa using h2
  have hp : parseVal (2 * (dumpsVal v).length + 2) (dumpsVal v) = some (v, []) := by
    have h3 := (rt_val (2 * (dumpsVal v).length + 2)).1 v [] h (by omega)
      (by intro c hc; simp at hc)
    simpa using h3
  dsimp only [loads]
  rw [show (dumps v).data = dumpsVal v from rfl, hskip, hp]
  rfl

theorem parse_canon : ∀ (fuel : Nat),
    (∀ (cs : List Char) (v : JVal) (r : List Char),
      parseVal fuel cs = some (v, r) → CanonV v) ∧
    (∀ (cs : List Char) (vs : List JVal) (r : List Char),
      parseElems fuel cs = some (vs, r) → ∀ v ∈ vs, CanonV v) ∧
    (∀ (cs : List Char) (ms : List (String × JVal)) (r : List Char),
      parseMembers fuel cs = some (ms, r) → ∀ p ∈ ms, CanonV p.2) := by
  intro fuel
  induction fuel with
  | zero =>
    refine ⟨?_, ?_, ?_⟩
    · intro cs v r h; exact absurd h (by simp [parseVal])
    · intro cs vs r h; exact absurd h (by simp [parseElems])
    · intro cs ms r h; exact absurd h (by simp [parseMembers])
  | succ f ih =>
    refine ⟨?_, ?_, ?_⟩
    · intro cs v r h
      simp only [parseVal] at h
      repeat' split at h
      all_goals try exact Option.noConfusion h
      all_goals cases h
      all_goals first
        | exact CanonV.cnull
        | exact CanonV.cbool _
        | exact CanonV.cnum _
        | exact CanonV.cstr _
        | exact CanonV.carr _ CanonA.anil
        | exact CanonV.cobj _ CanonO.onil (by simp [JObj.keys])
        | (rename_i heq
           exact CanonV.carr _ (canonA_ofList _ (ih.2.1 _ _ _ heq)))
        | (rename_i heq
           exact CanonV.cobj _ (setFold_canon _ (ih.2.2 _ _ _ heq)) (setFold_nodup _))
    · intro cs vs r h
      simp only [parseElems] at h
      split at h
      · rename_i v1 r1 heqV
        split at h
        · rename_i r2 heq2
          split at h
          · rename_i vs2 r3 heqE
            cases h
            intro w hw
            rcases List.mem_cons.mp hw with hw1 | hw2
            · subst hw1
              exact ih.1 _ _ _ heqV
            · exact ih.2.1 _ _ _ heqE w hw2
          · exact absurd h (by simp)
        · rename_i r2 heq2
          cases h
          intro w hw
          have hw1 : w = v1 := by simpa using hw
          subst hw1
          exact ih.1 _ _ _ heqV
        · exact absurd h (by simp)
      · exact absurd h (by simp)
    · intro cs ms r h
      simp only [parseMembers] at h
      split at h
      · rename_i r0 heq0
        split at h
        · rename_i key r1 heqK
          split at h
          · rename_i r2 heq2
            split at h
            · rename_i v1 r3 heqV
              split at h
              · rename_i r4 heq4
                split at h
                · rename_i ms2 r5 heqM
                  cases h
                  intro p hp
                  rcases List.mem_cons.mp hp with hp1 | hp2
                  · subst hp1
                    exact ih.1 _ _ _ heqV
                  · exact ih.2.2 _ _ _ heqM p hp2
                · exact absurd h (by simp)
              · rename_i r4 heq4
                cases h
                intro p hp
                have hp1 : p = (key, v1) := by simpa using hp
                subst hp1
                exact ih.1 _ _ _ heqV
              · exact absurd h (by simp)
            · exact absurd h (by simp)
          · exact absurd h (by simp)
        · exact absurd h (by simp)
      · exact absurd h (by simp)

theorem loads_canon (s : String) (v : JVal) (h : loads s = some v) : CanonV v := by
  dsimp only [loads] at h
  split at h
  · rename_i v1 r1 heq
    split at h
    · cases h
      exact (parse_canon _).1 _ _ _ heq
    · exact absurd h (by simp)
  · exact absurd h (by simp)

/-! ## C3: the tool-call normalization invariant -/

theorem pyLowerChar_idem (c : Char) :
    FixRequestBody.pyLowerChar (FixRequestBody.pyLowerChar c) = FixRequestBody.pyLowerChar c := by
  by_cases h : (65 ≤ c.toNat && c.toNat ≤ 90) = true
  · have hb : 65 ≤ c.toNat ∧ c.toNat ≤ 90 := by simpa using h
    have hic : FixRequestBody.pyLowerChar c = Char.ofNat (c.toNat + 32) := by
      rw [FixRequestBody.pyLowerChar, if_pos h]
    have ht : (Char.ofNat (c.toNat + 32)).toNat = c.toNat + 32 :=
      toNat_ofNat_lt _ (by omega)
    rw [hic, FixRequestBody.pyLowerChar,
        if_neg (by intro hcon; simp only [ht, Bool.and_eq_true, decide_eq_true_eq] at hcon; omega)]
  · have hic : FixRequestBody.pyLowerChar c = c := by
      rw [FixRequestBody.pyLowerChar, if_neg h]
    rw [hic]
    exact hic

theorem pyLower_idem (s : String) :
    FixRequestBody.pyLower (FixRequestBody.pyLower s) = FixRequestBody.pyLower s := by
  unfold FixRequestBody.pyLower
  show (⟨(s.data.map FixRequestBody.pyLowerChar).map FixRequestBody.pyLowerChar⟩ : String) = _
  rw [List.map_map]
  congr 1
  exact List.map_congr_left (fun c _ => by simp [Function.comp, pyLowerChar_idem c])

theorem nameLower_out (idv tyv : JVal) (nm ar : String) :
    toolCallNameLower (.cons "id" idv (.cons "type" tyv (.cons "function"
      (.jobj (.cons "name" (.jstr (FixRequestBody.pyLower nm))
        (.cons "arguments" (.jstr ar) .nil))) .nil))) = true := by
  show (FixRequestBody.pyLower (FixRequestBody.pyLower nm) == FixRequestBody.pyLower nm) = true
  rw [pyLower_idem nm]
  simp

theorem argsClean_out (idv tyv : JVal) (nm : String) (fs2 : JObj)
    (hcv : CanonV (.jobj fs2)) (hnd : dictHas fs2 "description" = false) :
    toolCallArgsCleanObj (.cons "id" idv (.cons "type" tyv (.cons "function"
      (.jobj (.cons "name" (.jstr nm)
        (.cons "arguments" (.jstr (dumps (.jobj fs2))) .nil))) .nil))) = true := by
  show (match loads (dumps (.jobj fs2)) with
        | some (.jobj fs) => !(dictHas fs "description")
        | _ => false) = true
  rw [loads_dumps _ hcv]
  simp [hnd]

theorem fixOneToolCall_clean (tc : JObj) (fd : JObj) (nm : String) (fs : JObj)
    (hfd : dictGetD tc "function" (.jobj .nil) = .jobj fd)
    (hnm : dictGetD fd "name" (.jstr "") = .jstr nm)
    (hargs : (match dictGetD fd "arguments" (.jstr "\x7b\x7d") with
              | .jstr s => (loads s).getD (.jobj .nil)
              | v => v) = .jobj fs)
    (hcanon : CanonV (.jobj fs)) :
    ∃ fs2, FixRequestBody.fixOneToolCall tc =
      .ok (.cons "id" (dictGetD tc "id" (.jstr ""))
        (.cons "type" (dictGetD tc "type" (.jstr "function"))
          (.cons "function" (.jobj (.cons "name" (.jstr (FixRequestBody.pyLower nm))
            (.cons "arguments" (.jstr (dumps (.jobj fs2))) .nil))) .nil)))
      ∧ dictHas fs2 "description" = false ∧ CanonV (.jobj fs2) := by
  refine ⟨if dictHas fs "description" then dictErase fs "description" else fs, ?_, ?_, ?_⟩
  · unfold FixRequestBody.fixOneToolCall
    dsimp only
    rw [hfd]
    dsimp only
    rw [hnm]
    dsimp only
    rw [hargs]
    cases hb : dictHas fs "description" with
    | true =>
      rw [show pyContainsStr (JVal.jobj fs) "description" = .ok (dictHas fs "description") from rfl, hb]
      dsimp only
      rw [if_pos rfl]
      rfl
    | false =>
      rw [show pyContainsStr (JVal.jobj fs) "description" = .ok (dictHas fs "description") from rfl, hb]
      dsimp only
      rw [if_neg (by simp)]
      rfl
  · cases hb : dictHas fs "description" with
    | true => rw [if_pos rfl]; exact dictHas_erase_self fs "description"
    | false => rw [if_neg (by simp)]; exact hb
  · cases hcanon with
    | cobj _ ho hndk =>
      cases hb : dictHas fs "description" with
      | true =>
        rw [if_pos rfl]
        exact CanonV.cobj _ (canonO_dictErase fs _ ho) (keys_nodup_dictErase fs _ hndk)
      | false =>
        rw [if_neg (by simp)]
        exact CanonV.cobj _ ho hndk

theorem fixOneToolCall_good (tc : JObj) (hg : goodToolCall tc = true) :
    ∃ f, FixRequestBody.fixOneToolCall tc = .ok f
      ∧ toolCallNameLower f = true ∧ toolCallArgsCleanObj f = true := by
  unfold goodToolCall at hg
  split at hg
  · rename_i heqF
    obtain ⟨fs2, hok, hnd, hcv⟩ := fixOneToolCall_clean tc .nil "" .nil
      (by unfold dictGetD; rw [heqF]; rfl) rfl rfl
      (CanonV.cobj _ CanonO.onil (by simp [JObj.keys]))
    exact ⟨_, hok, nameLower_out _ _ _ _, argsClean_out _ _ _ fs2 hcv hnd⟩
  · rename_i fd heqF
    rw [Bool.and_eq_true] at hg
    obtain ⟨hgN, hgA⟩ := hg
    have hname : ∃ nm, dictGetD fd "name" (.jstr "") = .jstr nm := by
      split at hgN
      · rename_i x heqN
        exact ⟨"", by unfold dictGetD; rw [heqN]; rfl⟩
      · rename_i x nm2 heqN
        exact ⟨nm2, by unfold dictGetD; rw [heqN]; rfl⟩
      · exact absurd hgN (by simp)
    obtain ⟨nm, hnm⟩ := hname
    have hargs : ∃ fs, (match dictGetD fd "arguments" (.jstr "\x7b\x7d") with
                        | .jstr s => (loads s).getD (.jobj .nil)
                        | v => v) = .jobj fs ∧ CanonV (.jobj fs) := by
      split at hgA
      · rename_i heqA
        refine ⟨.nil, ?_, CanonV.cobj _ CanonO.onil (by simp [JObj.keys])⟩
        unfold dictGetD
        rw [heqA]
        rfl
      · rename_i v heqA
        unfold goodArguments at hgA
        split at hgA
        · rename_i s
          split at hgA
          · rename_i fs0 heqL
            refine ⟨fs0, ?_, loads_canon s _ heqL⟩
            unfold dictGetD
            rw [heqA]
            show (loads s).getD (JVal.jobj JObj.nil) = JVal.jobj fs0
            rw [heqL]
            rfl
          · exact absurd hgA (by simp)
          · rename_i heqL
            refine ⟨.nil, ?_, CanonV.cobj _ CanonO.onil (by simp [JObj.keys])⟩
            unfold dictGetD
            rw [heqA]
            show (loads s).getD (JVal.jobj JObj.nil) = JVal.jobj JObj.nil
            rw [heqL]
            rfl
        · exact absurd hgA (by simp)
    obtain ⟨fs, hargseq, hcanon⟩ := hargs
    obtain ⟨fs2, hok, hnd2, hcv2⟩ := fixOneToolCall_clean tc fd nm fs
      (by unfold dictGetD; rw [heqF]; rfl) hnm hargseq hcanon
    exact ⟨_, hok, nameLower_out _ _ _ _, argsClean_out _ _ _ fs2 hcv2 hnd2⟩
  · exact absurd hg (by simp)

/-- C3 (corrected).  For every list of tool-call records whose `function`
field (when present) is a dict, whose `name` (when present) is a string and
whose `arguments` (when present) is a string that either fails to parse as
JSON or parses to a JSON object, `fix_tool_calls` succeeds, keeps the batch
length, and every output element has a lowercase `function.name` and a
`function.arguments` string that parses as a JSON object with no
`description` key.  Concretely: an element whose arguments fail to parse
gets the empty object substituted while the rest of the batch is still
processed, and Scenario F's arguments string comes out as a string that
parses to exactly the one-key object x = 1.  (The original claim, without
the parses-to-an-object proviso, is refuted by
`fix_tool_calls_args_array_counterexample`.) -/
theorem fix_tool_calls_invariant :
    (∀ (tcs : List JObj), tcs.all goodToolCall = true →
      ∃ out, FixRequestBody.fix_tool_calls tcs = .ok out ∧ out.length = tcs.length ∧
        ∀ f ∈ out, toolCallNameLower f = true ∧ toolCallArgsCleanObj f = true) ∧
    FixRequestBody.fix_tool_calls
        [JObj.cons "function" (.jobj (.cons "name" (.jstr "Bad")
            (.cons "arguments" (.jstr "\x7bnot json") .nil))) .nil,
         JObj.cons "function" (.jobj (.cons "name" (.jstr "F")
            (.cons "arguments" (.jstr "\x7b\"x\":1,\"description\":\"d\"\x7d") .nil))) .nil]
      = .ok [JObj.cons "id" (.jstr "") (.cons "type" (.jstr "function")
              (.cons "function" (.jobj (.cons "name" (.jstr "bad")
                (.cons "arguments" (.jstr "\x7b\x7d") .nil))) .nil)),
             JObj.cons "id" (.jstr "") (.cons "type" (.jstr "function")
              (.cons "function" (.jobj (.cons "name" (.jstr "f")
                (.cons "arguments" (.jstr "\x7b\"x\": 1\x7d") .nil))) .nil))] ∧
    loads "\x7b\"x\": 1\x7d" = some (.jobj (.cons "x" (.jnum 1) .nil)) := by
  refine ⟨?_, rfl, rfl⟩
  intro tcs
  induction tcs with
  | nil => intro _; exact ⟨[], rfl, rfl, by simp⟩
  | cons tc rest ih =>
    intro hall
    rw [List.all_cons, Bool.and_eq_true] at hall
    obtain ⟨f, hok, hn, ha⟩ := fixOneToolCall_good tc hall.1
    obtain ⟨out, hout, hlen, hinv⟩ := ih hall.2
    refine ⟨f :: out, ?_, by simp [hlen], ?_⟩
    · simp only [FixRequestBody.fix_tool_calls]
      rw [hok]
      show (match FixRequestBody.fix_tool_calls rest with
            | .ok fs => Except.ok (f :: fs)
            | .error e => .error e) = Except.ok (f :: out)
      rw [hout]
    · intro g hg
      rcases List.mem_cons.mp hg with h1 | h2
      · subst h1
        exact ⟨hn, ha⟩
      · exact hinv g h2

theorem fix_tool_calls_invariant_witness :
    ∃ out, FixRequestBody.fix_tool_calls
        [JObj.cons "function" (.jobj (.cons "name" (.jstr "F")
          (.cons "arguments" (.jstr "\x7b\"x\":1,\"description\":\"d\"\x7d") .nil))) .nil]
      = .ok out
      ∧ out.length = [JObj.cons "function" (.jobj (.cons "name" (.jstr "F")
          (.cons "arguments" (.jstr "\x7b\"x\":1,\"description\":\"d\"\x7d") .nil))) .nil].length
      ∧ ∀ f ∈ out, toolCallNameLower f = true ∧ toolCallArgsCleanObj f = true :=
  fix_tool_calls_invariant.1
    [JObj.cons "function" (.jobj (.cons "name" (.jstr "F")
      (.cons "arguments" (.jstr "\x7b\"x\":1,\"description\":\"d\"\x7d") .nil))) .nil] rfl

/-- C3 counterexample to the unqualified claim: a tool call whose
`arguments` string parses successfully to a JSON array (not an object) is
passed through - Python's `"description" in [1]` is a membership test that
returns False - so the output arguments re-serialize to `[1]`, which does
not parse as a JSON object. -/
theorem fix_tool_calls_args_array_counterexample :
    FixRequestBody.fix_tool_calls
        [JObj.cons "function" (.jobj (.cons "name" (.jstr "F")
          (.cons "arguments" (.jstr "[1]") .nil))) .nil]
      = .ok [JObj.cons "id" (.jstr "") (.cons "type" (.jstr "function")
          (.cons "function" (.jobj (.cons "name" (.jstr "f")
            (.cons "arguments" (.jstr "[1]") .nil))) .nil))] ∧
    toolCallArgsCleanObj (JObj.cons "id" (.jstr "") (.cons "type" (.jstr "function")
          (.cons "function" (.jobj (.cons "name" (.jstr "f")
            (.cons "arguments" (.jstr "[1]") .nil))) .nil))) = false :=
  ⟨rfl, rfl⟩
